import Mathlib

/-!
Verification of the first-order sequent prover (files `logic_language.py`,
`prover.py`).  The expression algebra, unifier and the relevant pieces of
the proof-search loop are embedded shallowly; machine-level Python details
(dictionaries, sets, exceptions) are made explicit.

Conventions of the embedding:
* Python's `==` on expressions ignores the `time` attributes; it is embedded
  as the Bool-valued function `eqE`.
* Python's `hash(x)` for the classes that define `__hash__` is
  `hash(str(x))`; the opaque string hash of CPython is modelled by the
  concrete injective-enough function `strHash`.  `Functor` defines `__eq__`
  but no `__hash__`, so Functor objects are unhashable: `hashE` returns
  `none` for them.
* `unify` recurses on substituted (hence possibly larger) children, so the
  embedding carries an explicit recursion-depth fuel; `none` means the fuel
  ran out, `some (.error m)` models a raised Python exception
  (AttributeError), `some (.ok none)` is the failure sentinel `None`, and
  `some (.ok (some s))` is a returned substitution dict (an insertion-ordered
  association list).
-/

namespace Prover

mutual

/-- The expression algebra of `logic_language.py`.  `var`/`term` carry the
mutable `time` attribute of `Alphabet`; `functor` carries the extra `time`
attribute set in `Functor.__init__`; `Predicate` and the connectives store
no time of their own. -/
inductive Expr where
  | var (name : String) (time : Nat)
  | term (name : String) (time : Nat)
  | functor (name : String) (args : ExprList) (time : Nat)
  | pred (name : String) (args : ExprList)
  | not (f : Expr)
  | and (f1 f2 : Expr)
  | or (f1 f2 : Expr)
  | implies (f1 f2 : Expr)
  | forAll (v : Expr) (f : Expr)
  | thereExists (v : Expr) (f : Expr)
deriving Repr

inductive ExprList where
  | nil
  | cons (e : Expr) (es : ExprList)
deriving Repr

end

namespace Expr

/-- Length of an argument list (`len(self.terms)`). -/
def lenL : ExprList → Nat
  | .nil => 0
  | .cons _ es => 1 + lenL es

mutual

/-- Python `==` on expressions.  Each class checks `isinstance` of the same
class and compares names and (recursively) components; `time` attributes are
never consulted.  The `len` check plus pairwise comparison of
`Formula.__eq__` is the structural list comparison `eqL`. -/
def eqE : Expr → Expr → Bool
  | .var n _, .var m _ => n == m
  | .term n _, .term m _ => n == m
  | .functor n as _, .functor m bs _ => n == m && eqL as bs
  | .pred n as, .pred m bs => n == m && eqL as bs
  | .not a, .not b => eqE a b
  | .and a1 a2, .and b1 b2 => eqE a1 b1 && eqE a2 b2
  | .or a1 a2, .or b1 b2 => eqE a1 b1 && eqE a2 b2
  | .implies a1 a2, .implies b1 b2 => eqE a1 b1 && eqE a2 b2
  | .forAll v1 a, .forAll v2 b => eqE v1 v2 && eqE a b
  | .thereExists v1 a, .thereExists v2 b => eqE v1 v2 && eqE a b
  | _, _ => false

def eqL : ExprList → ExprList → Bool
  | .nil, .nil => true
  | .cons a as, .cons b bs => eqE a b && eqL as bs
  | _, _ => false

end

mutual

/-- `occurs(self, unification_term)`: `Alphabet.occurs` is `False` (hence
`Variable`), `Term.occurs` compares with `==`, composite classes ask their
children. -/
def occursE : Expr → Expr → Bool
  | .var _ _, _ => false
  | .term n t, u => eqE (.term n t) u
  | .functor _ as _, u => occursL as u
  | .pred _ as, u => occursL as u
  | .not a, u => occursE a u
  | .and a1 a2, u => occursE a1 u || occursE a2 u
  | .or a1 a2, u => occursE a1 u || occursE a2 u
  | .implies a1 a2, u => occursE a1 u || occursE a2 u
  | .forAll _ a, u => occursE a u
  | .thereExists _ a, u => occursE a u

def occursL : ExprList → Expr → Bool
  | .nil, _ => false
  | .cons e es, u => occursE e u || occursL es u

end

mutual

/-- `replace(self, current, new)`: return `new` if `self == current`,
otherwise rebuild the node with replaced children.  Rebuilt `Functor`s get a
fresh `time = 0` from `Functor.__init__`; `Alphabet.replace` returns `self`
unchanged. -/
def replaceE : Expr → Expr → Expr → Expr
  | .var n t, c, w => if eqE (.var n t) c then w else .var n t
  | .term n t, c, w => if eqE (.term n t) c then w else .term n t
  | .functor n as t, c, w =>
      if eqE (.functor n as t) c then w else .functor n (replaceL as c w) 0
  | .pred n as, c, w =>
      if eqE (.pred n as) c then w else .pred n (replaceL as c w)
  | .not a, c, w => if eqE (.not a) c then w else .not (replaceE a c w)
  | .and a1 a2, c, w =>
      if eqE (.and a1 a2) c then w else .and (replaceE a1 c w) (replaceE a2 c w)
  | .or a1 a2, c, w =>
      if eqE (.or a1 a2) c then w else .or (replaceE a1 c w) (replaceE a2 c w)
  | .implies a1 a2, c, w =>
      if eqE (.implies a1 a2) c then w
      else .implies (replaceE a1 c w) (replaceE a2 c w)
  | .forAll v a, c, w =>
      if eqE (.forAll v a) c then w
      else .forAll (replaceE v c w) (replaceE a c w)
  | .thereExists v a, c, w =>
      if eqE (.thereExists v a) c then w
      else .thereExists (replaceE v c w) (replaceE a c w)

def replaceL : ExprList → Expr → Expr → ExprList
  | .nil, _, _ => .nil
  | .cons e es, c, w => .cons (replaceE e c w) (replaceL es c w)

end

mutual

/-- `set_creation_time(self, time)`: `Alphabet` stores the time, `Formula`
propagates to children, `Functor` additionally stores it, the connectives
and quantifiers propagate (quantifiers also to their bound variable). -/
def setTime : Expr → Nat → Expr
  | .var n _, t => .var n t
  | .term n _, t => .term n t
  | .functor n as _, t => .functor n (setTimeL as t) t
  | .pred n as, t => .pred n (setTimeL as t)
  | .not a, t => .not (setTime a t)
  | .and a1 a2, t => .and (setTime a1 t) (setTime a2 t)
  | .or a1 a2, t => .or (setTime a1 t) (setTime a2 t)
  | .implies a1 a2, t => .implies (setTime a1 t) (setTime a2 t)
  | .forAll v a, t => .forAll (setTime v t) (setTime a t)
  | .thereExists v a, t => .thereExists (setTime v t) (setTime a t)

def setTimeL : ExprList → Nat → ExprList
  | .nil, _ => .nil
  | .cons e es, t => .cons (setTime e t) (setTimeL es t)

end

mutual

/-- `__str__`: the canonical printed form.  `Formula.__str__` prints the bare
name for empty argument lists, otherwise `name(a1, a2, ...)`. -/
def printE : Expr → String
  | .var n _ => n
  | .term n _ => n
  | .functor n .nil _ => n
  | .functor n as _ => n ++ "(" ++ printL as ++ ")"
  | .pred n .nil => n
  | .pred n as => n ++ "(" ++ printL as ++ ")"
  | .not a => "¬" ++ printE a
  | .and a1 a2 => printE a1 ++ " ∧ " ++ printE a2
  | .or a1 a2 => "(" ++ printE a1 ++ " ∨ " ++ printE a2 ++ ")"
  | .implies a1 a2 => "(" ++ printE a1 ++ " → " ++ printE a2 ++ ")"
  | .forAll v a => "(∀" ++ printE v ++ ". " ++ printE a ++ ")"
  | .thereExists v a => "(∃" ++ printE v ++ ". " ++ printE a ++ ")"

/-- `', '.join(str(term) for term in self.terms)`. -/
def printL : ExprList → String
  | .nil => ""
  | .cons e .nil => printE e
  | .cons e es => printE e ++ ", " ++ printL es

end

mutual

/-- Auxiliary (not in the source): zero out every `time` attribute.  Python's
`==` coincides with Lean structural equality of zeroed trees. -/
def stripE : Expr → Expr
  | .var n _ => .var n 0
  | .term n _ => .term n 0
  | .functor n as _ => .functor n (stripL as) 0
  | .pred n as => .pred n (stripL as)
  | .not a => .not (stripE a)
  | .and a1 a2 => .and (stripE a1) (stripE a2)
  | .or a1 a2 => .or (stripE a1) (stripE a2)
  | .implies a1 a2 => .implies (stripE a1) (stripE a2)
  | .forAll v a => .forAll (stripE v) (stripE a)
  | .thereExists v a => .thereExists (stripE v) (stripE a)

def stripL : ExprList → ExprList
  | .nil => .nil
  | .cons e es => .cons (stripE e) (stripL es)

end

/-- The `time` attribute where Python defines one: `Alphabet` (`Variable`,
`Term`) and `Functor`.  Reading `.time` on any other class raises
`AttributeError`, modelled by `none`. -/
def getTime : Expr → Option Nat
  | .var _ t => some t
  | .term _ t => some t
  | .functor _ _ t => some t
  | _ => none

/-- `isinstance(e, Term)`. -/
def isTerm : Expr → Bool
  | .term _ _ => true
  | _ => false

/-- `isinstance(e, Variable)`. -/
def isVar : Expr → Bool
  | .var _ _ => true
  | _ => false

/-- `isinstance(e, Predicate)` (the atomicity test of the rule-expansion
step). -/
def isPred : Expr → Bool
  | .pred _ _ => true
  | _ => false

/-- `isinstance(e, ForAll)`. -/
def isForAll : Expr → Bool
  | .forAll _ _ => true
  | _ => false

/-- `isinstance(e, ThereExists)`. -/
def isThereExists : Expr → Bool
  | .thereExists _ _ => true
  | _ => false

end Expr

open Expr

/-! ### Auxiliary predicates on expressions (used to state the claims) -/

namespace Expr

mutual

/-- Auxiliary: `c` occurs as a subexpression of `e` (with respect to Python
`==`), counting every position, including the bound-variable slot of a
quantifier.  This is the spec's notion of "contains as a subexpression". -/
def containsE : Expr → Expr → Bool
  | .var n t, c => eqE (.var n t) c
  | .term n t, c => eqE (.term n t) c
  | .functor n as t, c => eqE (.functor n as t) c || containsL as c
  | .pred n as, c => eqE (.pred n as) c || containsL as c
  | .not a, c => eqE (.not a) c || containsE a c
  | .and a1 a2, c => eqE (.and a1 a2) c || containsE a1 c || containsE a2 c
  | .or a1 a2, c => eqE (.or a1 a2) c || containsE a1 c || containsE a2 c
  | .implies a1 a2, c => eqE (.implies a1 a2) c || containsE a1 c || containsE a2 c
  | .forAll v a, c => eqE (.forAll v a) c || containsE v c || containsE a c
  | .thereExists v a, c => eqE (.thereExists v a) c || containsE v c || containsE a c

def containsL : ExprList → Expr → Bool
  | .nil, _ => false
  | .cons e es, c => containsE e c || containsL es c

end

mutual

/-- Auxiliary: some `Term` node occurs anywhere in the tree (including
bound-variable slots). -/
def hasTermNode : Expr → Bool
  | .var _ _ => false
  | .term _ _ => true
  | .functor _ as _ => hasTermNodeL as
  | .pred _ as => hasTermNodeL as
  | .not a => hasTermNode a
  | .and a1 a2 => hasTermNode a1 || hasTermNode a2
  | .or a1 a2 => hasTermNode a1 || hasTermNode a2
  | .implies a1 a2 => hasTermNode a1 || hasTermNode a2
  | .forAll v a => hasTermNode v || hasTermNode a
  | .thereExists v a => hasTermNode v || hasTermNode a

def hasTermNodeL : ExprList → Bool
  | .nil => false
  | .cons e es => hasTermNode e || hasTermNodeL es

end

mutual

/-- Auxiliary: no quantifier anywhere in the tree has a `Term` inside its
bound-variable slot.  `occurs` never descends into that slot while
`replace` does, and this condition is what reconciles the two. -/
def binderClean : Expr → Bool
  | .var _ _ => true
  | .term _ _ => true
  | .functor _ as _ => binderCleanL as
  | .pred _ as => binderCleanL as
  | .not a => binderClean a
  | .and a1 a2 => binderClean a1 && binderClean a2
  | .or a1 a2 => binderClean a1 && binderClean a2
  | .implies a1 a2 => binderClean a1 && binderClean a2
  | .forAll v a => !hasTermNode v && binderClean a
  | .thereExists v a => !hasTermNode v && binderClean a

def binderCleanL : ExprList → Bool
  | .nil => true
  | .cons e es => binderClean e && binderCleanL es

end

mutual

/-- Auxiliary: the expression lies in the pure term algebra (`Variable`,
`Term`, `Functor` only) — the fragment `unify` actually receives below the
formula level. -/
def pureTermE : Expr → Bool
  | .var _ _ => true
  | .term _ _ => true
  | .functor _ as _ => pureTermL as
  | _ => false

def pureTermL : ExprList → Bool
  | .nil => true
  | .cons e es => pureTermE e && pureTermL es

end

mutual

/-- Auxiliary: some node carrying a `time` attribute has creation time
strictly greater than `t`. -/
def anyTimeGT : Expr → Nat → Bool
  | .var _ u, t => t < u
  | .term _ u, t => t < u
  | .functor _ as u, t => t < u || anyTimeGTL as t
  | .pred _ as, t => anyTimeGTL as t
  | .not a, t => anyTimeGT a t
  | .and a1 a2, t => anyTimeGT a1 t || anyTimeGT a2 t
  | .or a1 a2, t => anyTimeGT a1 t || anyTimeGT a2 t
  | .implies a1 a2, t => anyTimeGT a1 t || anyTimeGT a2 t
  | .forAll v a, t => anyTimeGT v t || anyTimeGT a t
  | .thereExists v a, t => anyTimeGT v t || anyTimeGT a t

def anyTimeGTL : ExprList → Nat → Bool
  | .nil, _ => false
  | .cons e es, t => anyTimeGT e t || anyTimeGTL es t

end

mutual

/-- `free_variables`: `Variable` is its own singleton, `Term` contributes
nothing, composites take unions, quantifiers subtract the bound variable
from the body's set.  Python sets are modelled as lists; only membership is
consumed. -/
def freeVarsE : Expr → List Expr
  | .var n t => [.var n t]
  | .term _ _ => []
  | .functor _ as _ => freeVarsL as
  | .pred _ as => freeVarsL as
  | .not a => freeVarsE a
  | .and a1 a2 => freeVarsE a1 ++ freeVarsE a2
  | .or a1 a2 => freeVarsE a1 ++ freeVarsE a2
  | .implies a1 a2 => freeVarsE a1 ++ freeVarsE a2
  | .forAll v a => (freeVarsE a).filter (fun e => !eqE e v)
  | .thereExists v a => (freeVarsE a).filter (fun e => !eqE e v)

def freeVarsL : ExprList → List Expr
  | .nil => []
  | .cons e es => freeVarsE e ++ freeVarsL es

end

mutual

/-- `free_terms`: dual to `free_variables`; quantifiers do not subtract. -/
def freeTermsE : Expr → List Expr
  | .var _ _ => []
  | .term n t => [.term n t]
  | .functor _ as _ => freeTermsL as
  | .pred _ as => freeTermsL as
  | .not a => freeTermsE a
  | .and a1 a2 => freeTermsE a1 ++ freeTermsE a2
  | .or a1 a2 => freeTermsE a1 ++ freeTermsE a2
  | .implies a1 a2 => freeTermsE a1 ++ freeTermsE a2
  | .forAll _ a => freeTermsE a
  | .thereExists _ a => freeTermsE a

def freeTermsL : ExprList → List Expr
  | .nil => []
  | .cons e es => freeTermsE e ++ freeTermsL es

end

end Expr

/-- A concrete stand-in for CPython's (opaque, deterministic) string hash:
only the fact that `hash(x)` is computed from `str(x)` matters. -/
def strHash (s : String) : Nat :=
  s.foldl (fun h c => h * 31 + c.toNat) 7

/-- Python `hash(e)`.  Every class that defines `__hash__` returns
`hash(str(self))`.  `Functor` overrides `__eq__` without defining
`__hash__`, which makes Functor objects unhashable (`hash` raises
`TypeError`), modelled by `none`. -/
def hashE : Expr → Option Nat
  | .functor _ _ _ => none
  | e => some (strHash (printE e))

/-! ### The unifier (`prover.py`, `unify` / `unify_list`)

Substitutions are Python dicts mapping `Term`s to expressions; they are
modelled as insertion-ordered association lists.  `unify` recurses on
substituted (possibly larger) children, so the model takes an explicit
recursion-depth fuel, decremented once per nesting level; `none` = out of
fuel. -/

abbrev Subst := List (Expr × Expr)

/-- `for k, v in substitution.items(): e = e.replace(k, v)` — the way the
prover applies a substitution dict. -/
def applyItems (s : Subst) (x : Expr) : Expr :=
  s.foldl (fun a kv => replaceE a kv.1 kv.2) x

/-- Python `k in d` for a dict keyed by expressions (`__eq__`-based;
`__hash__` is consistent with `__eq__` on the key classes in use). -/
def substMemKey (k : Expr) (s : Subst) : Bool :=
  s.any (fun p => eqE p.1 k)

/-- Python `d[k] = v`: overwrite in place if the key is present (keeping the
original key object and position), else append. -/
def dictUpdate (s : Subst) (k v : Expr) : Subst :=
  if substMemKey k s then s.map (fun p => if eqE p.1 k then (p.1, v) else p)
  else s ++ [(k, v)]

/-- `for k, v in sub.items(): substitution[k] = v`. -/
def dictUpdateAll (s t : Subst) : Subst :=
  t.foldl (fun acc p => dictUpdate acc p.1 p.2) s

/-- The child loop of the `Functor`/`Functor` and `Predicate`/`Predicate`
case of `unify`: apply the substitution accumulated so far to the next pair
of children, unify them with `u` (`unify` at the remaining depth), merge the
result into the accumulator.  The final catch-all is unreachable because the
caller has already checked the arities. -/
def unifyChildren (u : Expr → Expr → Option (Except String (Option Subst))) :
    Subst → ExprList → ExprList → Option (Except String (Option Subst))
  | s, .nil, .nil => some (.ok (some s))
  | s, .cons a as, .cons b bs =>
      match u (applyItems s a) (applyItems s b) with
      | none => none
      | some (.error e) => some (.error e)
      | some (.ok none) => some (.ok none)
      | some (.ok (some sub)) => unifyChildren u (dictUpdateAll s sub) as bs
  | _, _, _ => some (.ok none)

/-- `unify(term_a, term_b)` of `prover.py`.  Branches in source order:
a `Term` on the left binds (after the occurs check and the creation-time
comparison, which reads `term_b.time` and hence raises `AttributeError` on
classes without a `time` attribute); symmetrically for a `Term` on the
right; equal `Variable`s give the empty substitution; `Functor`s or
`Predicate`s of equal name and arity unify childwise; everything else is
the failure sentinel `None`. -/
def unify : Nat → Expr → Expr → Option (Except String (Option Subst))
  | 0, _, _ => none
  | fuel+1, a, b =>
      match a, b with
      | .term n t, b =>
          if occursE b (.term n t) then some (.ok none)
          else match getTime b with
            | none => some (.error "AttributeError")
            | some tb =>
                if t < tb then some (.ok none)
                else some (.ok (some [(.term n t, b)]))
      | a, .term n t =>
          if occursE a (.term n t) then some (.ok none)
          else match getTime a with
            | none => some (.error "AttributeError")
            | some ta =>
                if t < ta then some (.ok none)
                else some (.ok (some [(.term n t, a)]))
      | .var n t, .var m u =>
          if eqE (.var n t) (.var m u) then some (.ok (some []))
          else some (.ok none)
      | .functor n as t, .functor m bs u =>
          if n != m then some (.ok none)
          else if lenL as != lenL bs then some (.ok none)
          else unifyChildren (unify fuel) [] as bs
      | .pred n as, .pred m bs =>
          if n != m then some (.ok none)
          else if lenL as != lenL bs then some (.ok none)
          else unifyChildren (unify fuel) [] as bs
      | _, _ => some (.ok none)

/-- The loop of `unify_list(pairs)`: thread the accumulated substitution
through each pair. -/
def unifyListLoop (u : Expr → Expr → Option (Except String (Option Subst))) :
    Subst → List (Expr × Expr) → Option (Except String (Option Subst))
  | s, [] => some (.ok (some s))
  | s, (a, b) :: rest =>
      match u (applyItems s a) (applyItems s b) with
      | none => none
      | some (.error e) => some (.error e)
      | some (.ok none) => some (.ok none)
      | some (.ok (some sub)) => unifyListLoop u (dictUpdateAll s sub) rest

/-- `unify_list(pairs)`. -/
def unifyList (fuel : Nat) (pairs : List (Expr × Expr)) :
    Option (Except String (Option Subst)) :=
  unifyListLoop (unify fuel) [] pairs

/-! ### Invariants of substitutions produced by `unify` (spec-side) -/

/-- Keys of a substitution are `Term`s; no value contains its own key or an
earlier key; later keys differ from earlier keys.  Every substitution dict
built by `unify` satisfies this. -/
def GoodSub : Subst → Prop
  | [] => True
  | (k, v) :: rest =>
      isTerm k = true ∧ occursE v k = false ∧
      (∀ p ∈ rest, eqE p.1 k = false ∧ occursE p.2 k = false) ∧ GoodSub rest

/-- `k` is fresh for the substitution: no key is `==` to it and no value
contains it. -/
def FreeOfKey (s : Subst) (k : Expr) : Prop :=
  ∀ p ∈ s, eqE p.1 k = false ∧ occursE p.2 k = false

/-- `for k, v in substitution.items(): es = [e.replace(k, v) for e in es]`
applied to an argument list. -/
def applyItemsL (s : Subst) (es : ExprList) : ExprList :=
  s.foldl (fun acc kv => replaceL acc kv.1 kv.2) es

/-- What `unify` guarantees about a returned substitution (spec-side):
the dict is well-formed (`GoodSub`), its keys are `Term`s and its values
binder-clean, expressions with no occurrence in the inputs stay out of it,
and applying it to the two inputs makes them `==`-equal. -/
def UnifySound (a b : Expr) (σ : Subst) : Prop :=
  GoodSub σ ∧
  (∀ p ∈ σ, isTerm p.1 = true ∧ binderClean p.2 = true) ∧
  (∀ k, isTerm k = true → occursE a k = false → occursE b k = false → FreeOfKey σ k) ∧
  eqE (applyItems σ a) (applyItems σ b) = true

/-! ### Sequents (`prover.py`, class `Sequent`)

The `left` and `right` Python dicts (formula → expansion depth, insertion
ordered, keyed by `__eq__`/`__hash__`, which are consistent on formulas) are
association lists.  The shared mutable sibling set is carried as an optional
list of sequents; the interior mutation `siblings.add(new)` of the shared
group object is modelled at the call sites that consume the group. -/

abbrev FDict := List (Expr × Nat)

/-- Python `f in d` on a formula-keyed dict. -/
def fdictMem (d : FDict) (k : Expr) : Bool :=
  d.any (fun p => eqE p.1 k)

/-- Python `d[k]` (total model; the prover only reads keys that are
present, so the default is never observed). -/
def fdictGet (d : FDict) (k : Expr) : Nat :=
  match d.find? (fun p => eqE p.1 k) with
  | some p => p.2
  | none => 0

/-- Python `d[k] = v`. -/
def fdictSet (d : FDict) (k : Expr) (v : Nat) : FDict :=
  if fdictMem d k then d.map (fun p => if eqE p.1 k then (p.1, v) else p)
  else d ++ [(k, v)]

/-- Python `del d[k]` (dicts hold one entry per key, so filtering all
matches agrees with deleting the single entry). -/
def fdictDel (d : FDict) (k : Expr) : FDict :=
  d.filter (fun p => !eqE p.1 k)

/-- Keys are pairwise distinct under `==` — the dict invariant. -/
def fdictKeysUnique : FDict → Bool
  | [] => true
  | p :: rest => !(rest.any (fun q => eqE q.1 p.1)) && fdictKeysUnique rest

inductive Sequent where
  | mk (left right : FDict) (siblings : Option (List Sequent)) (depth : Nat)

namespace Sequent

def left : Sequent → FDict
  | .mk l _ _ _ => l

def right : Sequent → FDict
  | .mk _ r _ _ => r

def siblings : Sequent → Option (List Sequent)
  | .mk _ _ sb _ => sb

def depth : Sequent → Nat
  | .mk _ _ _ d => d

/-- `Sequent.free_variables`: union over the formulas of both sides (set
union modelled by concatenation; only membership is consumed). -/
def freeVariables (s : Sequent) : List Expr :=
  (s.left.foldl (fun acc p => acc ++ freeVarsE p.1) []) ++
    (s.right.foldl (fun acc p => acc ++ freeVarsE p.1) [])

/-- `Sequent.free_terms`. -/
def freeTerms (s : Sequent) : List Expr :=
  (s.left.foldl (fun acc p => acc ++ freeTermsE p.1) []) ++
    (s.right.foldl (fun acc p => acc ++ freeTermsE p.1) [])

end Sequent

/-- `Variable(name) in fv or Term(name) in fv` (set membership is
`__eq__`-based and `==` ignores times). -/
def nameTakenIn (fv : List Expr) (name : String) : Bool :=
  fv.any (fun e => eqE e (.var name 0)) || fv.any (fun e => eqE e (.term name 0))

/-- The `while` loop of `get_variable_name`: try `pre1`, `pre2`, … until a
name is free.  The loop always terminates because each of the finitely many
taken names blocks at most one candidate index; a fuel of `|fv| + 1`
therefore suffices and the base case is never reached. -/
def freshLoop (fv : List Expr) (pre : String) : Nat → Nat → String
  | 0, idx => pre ++ toString idx
  | fuel+1, idx =>
      let name := pre ++ toString idx
      if nameTakenIn fv name then freshLoop fv pre fuel (idx + 1) else name

/-- `Sequent.get_variable_name(prefix)`. -/
def Sequent.getVariableName (s : Sequent) (pre : String) : String :=
  let fv := s.freeVariables ++ s.freeTerms
  freshLoop fv pre (fv.length + 1) 1

/-- Inner loop of `get_unification_pairs`: pair one left formula with every
right formula whose unification with it does not return `None`.  The Python
`is not None` test also accepts the empty dict. -/
def pairsForLeft (fuel : Nat) (fl : Expr) :
    List Expr → Option (Except String (List (Expr × Expr)))
  | [] => some (.ok [])
  | fr :: rest =>
      match unify fuel fl fr with
      | none => none
      | some (.error e) => some (.error e)
      | some (.ok r) =>
          match pairsForLeft fuel fl rest with
          | none => none
          | some (.error e) => some (.error e)
          | some (.ok ps) => some (.ok (if r.isSome then (fl, fr) :: ps else ps))

/-- Outer loop of `get_unification_pairs`. -/
def unifPairsFrom (fuel : Nat) :
    List Expr → List Expr → Option (Except String (List (Expr × Expr)))
  | [], _ => some (.ok [])
  | fl :: fls, frs =>
      match pairsForLeft fuel fl frs with
      | none => none
      | some (.error e) => some (.error e)
      | some (.ok ps) =>
          match unifPairsFrom fuel fls frs with
          | none => none
          | some (.error e) => some (.error e)
          | some (.ok rest) => some (.ok (ps ++ rest))

/-- `Sequent.get_unification_pairs()`. -/
def Sequent.getUnificationPairs (fuel : Nat) (s : Sequent) :
    Option (Except String (List (Expr × Expr))) :=
  unifPairsFrom fuel (s.left.map Prod.fst) (s.right.map Prod.fst)

/-- `Sequent.__eq__`: both sides contain the same formulas as sets (depth
metadata ignored). -/
def pyEqSeq (a b : Sequent) : Bool :=
  a.left.all (fun p => fdictMem b.left p.1) &&
  b.left.all (fun p => fdictMem a.left p.1) &&
  a.right.all (fun p => fdictMem b.right p.1) &&
  b.right.all (fun p => fdictMem a.right p.1)

/-- `', '.join(...)`. -/
def joinStrs : List String → String
  | [] => ""
  | [x] => x
  | x :: xs => x ++ ", " ++ joinStrs xs

/-- `Sequent.__str__`. -/
def strSeq (s : Sequent) : String :=
  let lp := joinStrs (s.left.map (fun p => printE p.1))
  let rp := joinStrs (s.right.map (fun p => printE p.1))
  (if lp != "" then lp ++ " " else "") ++ "⊢" ++ (if rp != "" then " " ++ rp else "")

/-- Python set membership `x in S` for sets of sequents: a member with the
same hash that compares equal (or is the same object, which the reflexive
`__eq__` subsumes).  `Sequent.__hash__` is `hash(str(self))`; the string
hash is modelled as the string itself. -/
def seqSetMem (x : Sequent) (l : List Sequent) : Bool :=
  l.any (fun y => strSeq y == strSeq x && pyEqSeq y x)

/-- `proven |= old_sequent.siblings`: add the members not already present. -/
def pyUnionSeqs (p : List Sequent) (s : List Sequent) : List Sequent :=
  p ++ s.filter (fun x => !seqSetMem x p)

/-! ### The dequeue loop of `prove_sequent` (`prover.py` lines 145–149)

```
old_sequent = None
while len(frontier) > 0 and (old_sequent is None or old_sequent in proven):
    old_sequent = frontier.pop(0)
if old_sequent is None:
    break
``` -/

def dequeueLoop (proven : List Sequent) :
    Option Sequent → List Sequent → Option Sequent × List Sequent
  | old, [] => (old, [])
  | none, s :: rest => dequeueLoop proven (some s) rest
  | some q, s :: rest =>
      if seqSetMem q proven then dequeueLoop proven (some s) rest
      else (some q, s :: rest)

/-- Spec-side: the first frontier entry not in `proven`, with the remaining
frontier. -/
def firstNonProven (proven : List Sequent) :
    List Sequent → Option (Sequent × List Sequent)
  | [] => none
  | s :: rest =>
      if seqSetMem s proven then firstNonProven proven rest else some (s, rest)

/-- Spec-side: last element of a list, with default. -/
def lastD (l : List Sequent) (d : Sequent) : Sequent :=
  match l with
  | [] => d
  | x :: xs => lastD xs x

/-! ### Formula selection for rule expansion (`prover.py` lines 195–223) -/

/-- One step of the selection scan: take the entry if its depth beats the
running best and the formula is not a `Predicate` (the depth comparison
precedes the atomicity filter, exactly as in the source). -/
def scanStep (acc : Option Expr × Option Nat) (fd : Expr × Nat) :
    Option Expr × Option Nat :=
  let cond := match acc.2 with
    | none => true
    | some d => decide (fd.2 < d)
  if cond then (if isPred fd.1 then acc else (some fd.1, some fd.2)) else acc

/-- The per-side scan (`left_formula` / `left_depth` loop). -/
def scanSide (side : FDict) : Option Expr × Option Nat :=
  side.foldl scanStep (none, none)

/-- The `apply_left` / `apply_right` cascade.  The wildcard row is
unreachable: the scan sets formula and depth together. -/
def selectFlags (left right : FDict) : Bool × Bool :=
  let lp := scanSide left
  let rp := scanSide right
  let al := lp.1.isSome && !rp.1.isSome
  let ar := !lp.1.isSome && rp.1.isSome
  if lp.1.isSome && rp.1.isSome then
    match lp.2, rp.2 with
    | some ld, some rd => if ld < rd then (true, ar) else (al, true)
    | _, _ => (al, ar)
  else (al, ar)

/-! ### The ∀-left and ∃-right rules (`prover.py` lines 309–327, 437–455) -/

/-- The freshly instantiated subformula of the ∀-left rule: substitute a
fresh `Term` for the bound variable and stamp the successor's depth on it. -/
def forAllLeftInst (old : Sequent) (lf : Expr) : Expr :=
  match lf with
  | .forAll v body =>
      setTime (replaceE body v (.term (old.getVariableName "t") 0)) (old.depth + 1)
  | _ => lf

/-- The ∀-left rule.  `old_sequent.siblings or set()` replaces an absent (or
empty, both falsy) group by a fresh empty set; the interior mutation
`new_sequent.siblings.add(new_sequent)` of the shared group set is modelled
at the group's consumers and does not affect the successor's own fields. -/
def applyForAllLeft (old : Sequent) (lf : Expr) : Sequent :=
  let sibs : Option (List Sequent) := match old.siblings with
    | none => some []
    | some s => some s
  let l1 := fdictSet old.left lf (fdictGet old.left lf + 1)
  let inst := forAllLeftInst old lf
  let l2 := if fdictMem l1 inst then l1 else fdictSet l1 inst (fdictGet l1 lf)
  .mk l2 old.right sibs (old.depth + 1)

/-- The freshly instantiated subformula of the ∃-right rule. -/
def thereExistsRightInst (old : Sequent) (rf : Expr) : Expr :=
  match rf with
  | .thereExists v body =>
      setTime (replaceE body v (.term (old.getVariableName "t") 0)) (old.depth + 1)
  | _ => rf

/-- The ∃-right rule (mirror image of ∀-left on the right side). -/
def applyThereExistsRight (old : Sequent) (rf : Expr) : Sequent :=
  let sibs : Option (List Sequent) := match old.siblings with
    | none => some []
    | some s => some s
  let r1 := fdictSet old.right rf (fdictGet old.right rf + 1)
  let inst := thereExistsRightInst old rf
  let r2 := if fdictMem r1 inst then r1 else fdictSet r1 inst (fdictGet r1 rf)
  .mk old.left r2 sibs (old.depth + 1)

/-! ### The sibling-closure step (`prover.py` lines 158–191) -/

/-- `[sequent.get_unification_pairs() for sequent in old_sequent.siblings]`,
propagating fuel exhaustion and exceptions. -/
def getPairLists (fuel : Nat) :
    List Sequent → Option (Except String (List (List (Expr × Expr))))
  | [] => some (.ok [])
  | s :: rest =>
      match s.getUnificationPairs fuel with
      | none => none
      | some (.error e) => some (.error e)
      | some (.ok pl) =>
          match getPairLists fuel rest with
          | none => none
          | some (.error e) => some (.error e)
          | some (.ok pls) => some (.ok (pl :: pls))

/-- All simultaneous choices of one pair per sibling, in the order the
odometer loop enumerates them (last index fastest). -/
def productChoices : List (List (Expr × Expr)) → List (List (Expr × Expr))
  | [] => [[]]
  | l :: ls => l.flatMap (fun x => (productChoices ls).map (fun rest => x :: rest))

/-- The odometer loop: try `unify_list` on each simultaneous selection until
one yields a substitution. -/
def trySubsts (fuel : Nat) :
    List (List (Expr × Expr)) → Option (Except String (Option Subst))
  | [] => some (.ok none)
  | ch :: rest =>
      match unifyList fuel ch with
      | none => none
      | some (.error e) => some (.error e)
      | some (.ok none) => trySubsts fuel rest
      | some (.ok (some sub)) => some (.ok (some sub))

/-- The closing branch of the sibling check: when every sibling has
candidate pairs and some simultaneous selection unifies, every sibling is
added to `proven` and the frontier is filtered.  `none` covers the other
outcomes (fuel, exception, a sibling without pairs — which in the source
removes the current sequent from the group and falls through — and the
no-selection-unifies fall-through to rule expansion). -/
def siblingStep (fuel : Nat) (sibs proven frontier : List Sequent) :
    Option (List Sequent × List Sequent) :=
  match getPairLists fuel sibs with
  | none => none
  | some (.error _) => none
  | some (.ok pls) =>
      if pls.all (fun l => !l.isEmpty) then
        match trySubsts fuel (productChoices pls) with
        | some (.ok (some _)) =>
            some (pyUnionSeqs proven sibs, frontier.filter (fun q => !seqSetMem q sibs))
        | _ => none
      else none

open Expr

/-! ### Basic theory of the Python structural equality `==` (`eqE`)

Python's `__eq__` never consults the `time` attributes, so `eqE` coincides
with Lean equality of time-zeroed (`stripE`-ed) trees.  All congruence
facts flow from that characterisation. -/

mutual

theorem eqE_iff_strip : ∀ (a b : Expr), eqE a b = true ↔ stripE a = stripE b
  | .var n t, b => by cases b <;> simp [eqE, stripE]
  | .term n t, b => by cases b <;> simp [eqE, stripE]
  | .functor n as t, b => by
      cases b <;> simp [eqE, stripE]
      next m bs u => rw [eqL_iff_strip as bs]; exact fun _ => Iff.rfl
  | .pred n as, b => by
      cases b <;> simp [eqE, stripE]
      next m bs => rw [eqL_iff_strip as bs]; exact fun _ => Iff.rfl
  | .not a, b => by
      cases b <;> simp [eqE, stripE]
      next f => rw [eqE_iff_strip a f]
  | .and a1 a2, b => by
      cases b <;> simp [eqE, stripE]
      next f1 f2 => rw [eqE_iff_strip a1 f1, eqE_iff_strip a2 f2]
  | .or a1 a2, b => by
      cases b <;> simp [eqE, stripE]
      next f1 f2 => rw [eqE_iff_strip a1 f1, eqE_iff_strip a2 f2]
  | .implies a1 a2, b => by
      cases b <;> simp [eqE, stripE]
      next f1 f2 => rw [eqE_iff_strip a1 f1, eqE_iff_strip a2 f2]
  | .forAll v a, b => by
      cases b <;> simp [eqE, stripE]
      next v2 f => rw [eqE_iff_strip v v2, eqE_iff_strip a f]
  | .thereExists v a, b => by
      cases b <;> simp [eqE, stripE]
      next v2 f => rw [eqE_iff_strip v v2, eqE_iff_strip a f]

theorem eqL_iff_strip : ∀ (as bs : ExprList), eqL as bs = true ↔ stripL as = stripL bs
  | .nil, bs => by cases bs <;> simp [eqL, stripL]
  | .cons a as, bs => by
      cases bs <;> simp [eqL, stripL]
      next b bs2 => rw [eqE_iff_strip a b, eqL_iff_strip as bs2]

end

mutual

theorem printE_strip : ∀ (e : Expr), printE (stripE e) = printE e
  | .var n t => rfl
  | .term n t => rfl
  | .functor n as t => by
      cases as with
      | nil => rfl
      | cons e es =>
          show n ++ "(" ++ printL (stripL (.cons e es)) ++ ")" =
            n ++ "(" ++ printL (.cons e es) ++ ")"
          rw [printL_strip (.cons e es)]
  | .pred n as => by
      cases as with
      | nil => rfl
      | cons e es =>
          show n ++ "(" ++ printL (stripL (.cons e es)) ++ ")" =
            n ++ "(" ++ printL (.cons e es) ++ ")"
          rw [printL_strip (.cons e es)]
  | .not a => by
      show "¬" ++ printE (stripE a) = "¬" ++ printE a
      rw [printE_strip a]
  | .and a1 a2 => by
      show printE (stripE a1) ++ " ∧ " ++ printE (stripE a2) = printE a1 ++ " ∧ " ++ printE a2
      rw [printE_strip a1, printE_strip a2]
  | .or a1 a2 => by
      show "(" ++ printE (stripE a1) ++ " ∨ " ++ printE (stripE a2) ++ ")" =
        "(" ++ printE a1 ++ " ∨ " ++ printE a2 ++ ")"
      rw [printE_strip a1, printE_strip a2]
  | .implies a1 a2 => by
      show "(" ++ printE (stripE a1) ++ " → " ++ printE (stripE a2) ++ ")" =
        "(" ++ printE a1 ++ " → " ++ printE a2 ++ ")"
      rw [printE_strip a1, printE_strip a2]
  | .forAll v a => by
      show "(∀" ++ printE (stripE v) ++ ". " ++ printE (stripE a) ++ ")" =
        "(∀" ++ printE v ++ ". " ++ printE a ++ ")"
      rw [printE_strip v, printE_strip a]
  | .thereExists v a => by
      show "(∃" ++ printE (stripE v) ++ ". " ++ printE (stripE a) ++ ")" =
        "(∃" ++ printE v ++ ". " ++ printE a ++ ")"
      rw [printE_strip v, printE_strip a]

theorem printL_strip : ∀ (es : ExprList), printL (stripL es) = printL es
  | .nil => rfl
  | .cons e es => by
      cases es with
      | nil =>
          show printE (stripE e) = printE e
          exact printE_strip e
      | cons e2 es2 =>
          show printE (stripE e) ++ ", " ++ printL (stripL (.cons e2 es2)) =
            printE e ++ ", " ++ printL (.cons e2 es2)
          rw [printE_strip e, printL_strip (.cons e2 es2)]

end

mutual

theorem stripE_setTime : ∀ (e : Expr) (t : Nat), stripE (setTime e t) = stripE e
  | .var n u, t => rfl
  | .term n u, t => rfl
  | .functor n as u, t => by
      show Expr.functor n (stripL (setTimeL as t)) 0 = .functor n (stripL as) 0
      rw [stripL_setTime as t]
  | .pred n as, t => by
      show Expr.pred n (stripL (setTimeL as t)) = .pred n (stripL as)
      rw [stripL_setTime as t]
  | .not a, t => by
      show Expr.not (stripE (setTime a t)) = .not (stripE a)
      rw [stripE_setTime a t]
  | .and a1 a2, t => by
      show Expr.and (stripE (setTime a1 t)) (stripE (setTime a2 t)) =
        .and (stripE a1) (stripE a2)
      rw [stripE_setTime a1 t, stripE_setTime a2 t]
  | .or a1 a2, t => by
      show Expr.or (stripE (setTime a1 t)) (stripE (setTime a2 t)) =
        .or (stripE a1) (stripE a2)
      rw [stripE_setTime a1 t, stripE_setTime a2 t]
  | .implies a1 a2, t => by
      show Expr.implies (stripE (setTime a1 t)) (stripE (setTime a2 t)) =
        .implies (stripE a1) (stripE a2)
      rw [stripE_setTime a1 t, stripE_setTime a2 t]
  | .forAll v a, t => by
      show Expr.forAll (stripE (setTime v t)) (stripE (setTime a t)) =
        .forAll (stripE v) (stripE a)
      rw [stripE_setTime v t, stripE_setTime a t]
  | .thereExists v a, t => by
      show Expr.thereExists (stripE (setTime v t)) (stripE (setTime a t)) =
        .thereExists (stripE v) (stripE a)
      rw [stripE_setTime v t, stripE_setTime a t]

theorem stripL_setTime : ∀ (es : ExprList) (t : Nat), stripL (setTimeL es t) = stripL es
  | .nil, t => rfl
  | .cons e es, t => by
      show ExprList.cons (stripE (setTime e t)) (stripL (setTimeL es t)) =
        .cons (stripE e) (stripL es)
      rw [stripE_setTime e t, stripL_setTime es t]

end

theorem boolEqOfIff {x y : Bool} (h : x = true ↔ y = true) : x = y := by
  cases x <;> cases y <;> simp_all

theorem eqE_refl (a : Expr) : eqE a a = true := (eqE_iff_strip a a).mpr rfl

theorem eqL_refl (as : ExprList) : eqL as as = true := (eqL_iff_strip as as).mpr rfl

theorem eqE_symm (a b : Expr) : eqE a b = eqE b a :=
  boolEqOfIff (by rw [eqE_iff_strip, eqE_iff_strip]; exact eq_comm)

theorem eqE_trans {a b c : Expr} (h1 : eqE a b = true) (h2 : eqE b c = true) :
    eqE a c = true :=
  (eqE_iff_strip a c).mpr ((eqE_iff_strip a b).mp h1 ▸ (eqE_iff_strip b c).mp h2)

/-- Python-equal expressions compare `==`-equal against any third
expression.  -/
theorem eqE_congr_key {x y : Expr} (h : eqE x y = true) (k : Expr) :
    eqE x k = eqE y k :=
  boolEqOfIff (by rw [eqE_iff_strip, eqE_iff_strip, (eqE_iff_strip x y).mp h])

mutual

theorem occursE_congr : ∀ (x y : Expr), eqE x y = true → ∀ k, occursE x k = occursE y k
  | .var _ _, y, h, k => by
      cases y <;> try exact (Bool.false_ne_true h).elim
      simp [occursE]
  | .term n t, y, h, k => by
      cases y <;> try exact (Bool.false_ne_true h).elim
      next m u => exact eqE_congr_key (x := Expr.term n t) (y := Expr.term m u) h k
  | .functor n as t, y, h, k => by
      cases y <;> try exact (Bool.false_ne_true h).elim
      next m bs u =>
        have h2 : n = m ∧ eqL as bs = true := by
          simpa only [eqE, Bool.and_eq_true, beq_iff_eq] using h
        exact occursL_congr as bs h2.2 k
  | .pred n as, y, h, k => by
      cases y <;> try exact (Bool.false_ne_true h).elim
      next m bs =>
        have h2 : n = m ∧ eqL as bs = true := by
          simpa only [eqE, Bool.and_eq_true, beq_iff_eq] using h
        exact occursL_congr as bs h2.2 k
  | .not a, y, h, k => by
      cases y <;> try exact (Bool.false_ne_true h).elim
      next f => exact occursE_congr a f h k
  | .and a1 a2, y, h, k => by
      cases y <;> try exact (Bool.false_ne_true h).elim
      next f1 f2 =>
        have h2 : eqE a1 f1 = true ∧ eqE a2 f2 = true := by
          simpa only [eqE, Bool.and_eq_true] using h
        show (occursE a1 k || occursE a2 k) = (occursE f1 k || occursE f2 k)
        rw [occursE_congr a1 f1 h2.1 k, occursE_congr a2 f2 h2.2 k]
  | .or a1 a2, y, h, k => by
      cases y <;> try exact (Bool.false_ne_true h).elim
      next f1 f2 =>
        have h2 : eqE a1 f1 = true ∧ eqE a2 f2 = true := by
          simpa only [eqE, Bool.and_eq_true] using h
        show (occursE a1 k || occursE a2 k) = (occursE f1 k || occursE f2 k)
        rw [occursE_congr a1 f1 h2.1 k, occursE_congr a2 f2 h2.2 k]
  | .implies a1 a2, y, h, k => by
      cases y <;> try exact (Bool.false_ne_true h).elim
      next f1 f2 =>
        have h2 : eqE a1 f1 = true ∧ eqE a2 f2 = true := by
          simpa only [eqE, Bool.and_eq_true] using h
        show (occursE a1 k || occursE a2 k) = (occursE f1 k || occursE f2 k)
        rw [occursE_congr a1 f1 h2.1 k, occursE_congr a2 f2 h2.2 k]
  | .forAll v a, y, h, k => by
      cases y <;> try exact (Bool.false_ne_true h).elim
      next v2 f =>
        have h2 : eqE v v2 = true ∧ eqE a f = true := by
          simpa only [eqE, Bool.and_eq_true] using h
        exact occursE_congr a f h2.2 k
  | .thereExists v a, y, h, k => by
      cases y <;> try exact (Bool.false_ne_true h).elim
      next v2 f =>
        have h2 : eqE v v2 = true ∧ eqE a f = true := by
          simpa only [eqE, Bool.and_eq_true] using h
        exact occursE_congr a f h2.2 k

theorem occursL_congr : ∀ (xs ys : ExprList), eqL xs ys = true → ∀ k, occursL xs k = occursL ys k
  | .nil, ys, h, k => by
      cases ys <;> try exact (Bool.false_ne_true h).elim
      simp [occursL]
  | .cons x xs, ys, h, k => by
      cases ys <;> try exact (Bool.false_ne_true h).elim
      next y ys2 =>
        have h2 : eqE x y = true ∧ eqL xs ys2 = true := by
          simpa only [eqL, Bool.and_eq_true] using h
        show (occursE x k || occursL xs k) = (occursE y k || occursL ys2 k)
        rw [occursE_congr x y h2.1 k, occursL_congr xs ys2 h2.2 k]

end

/-! ### Lemmas about `replace` -/

mutual

/-- `replace` is a congruence for Python equality: replacing in `==`-equal
expressions yields `==`-equal results. -/
theorem eqE_congr_replace : ∀ (x y k v : Expr), eqE x y = true →
    eqE (replaceE x k v) (replaceE y k v) = true
  | .var n t, y, k, v, h => by
      cases y <;> try exact (Bool.false_ne_true h).elim
      next m u =>
        have hk := eqE_congr_key (x := Expr.var n t) (y := Expr.var m u) h k
        simp only [replaceE, ← hk]
        cases hx : eqE (Expr.var n t) k <;> simp [hx, h, eqE_refl]
  | .term n t, y, k, v, h => by
      cases y <;> try exact (Bool.false_ne_true h).elim
      next m u =>
        have hk := eqE_congr_key (x := Expr.term n t) (y := Expr.term m u) h k
        simp only [replaceE, ← hk]
        cases hx : eqE (Expr.term n t) k <;> simp [hx, h, eqE_refl]
  | .functor n as t, y, k, v, h => by
      cases y <;> try exact (Bool.false_ne_true h).elim
      next m bs u =>
        have h2 : n = m ∧ eqL as bs = true := by
          simpa only [eqE, Bool.and_eq_true, beq_iff_eq] using h
        have hk := eqE_congr_key (x := Expr.functor n as t) (y := Expr.functor m bs u) h k
        simp only [replaceE, ← hk]
        cases hx : eqE (Expr.functor n as t) k <;>
          simp [hx, h, eqE, h2.1, eqE_refl, eqL_congr_replace as bs k v h2.2]
  | .pred n as, y, k, v, h => by
      cases y <;> try exact (Bool.false_ne_true h).elim
      next m bs =>
        have h2 : n = m ∧ eqL as bs = true := by
          simpa only [eqE, Bool.and_eq_true, beq_iff_eq] using h
        have hk := eqE_congr_key (x := Expr.pred n as) (y := Expr.pred m bs) h k
        simp only [replaceE, ← hk]
        cases hx : eqE (Expr.pred n as) k <;>
          simp [hx, h, eqE, h2.1, eqE_refl, eqL_congr_replace as bs k v h2.2]
  | .not a, y, k, v, h => by
      cases y <;> try exact (Bool.false_ne_true h).elim
      next f =>
        have hk := eqE_congr_key (x := Expr.not a) (y := Expr.not f) h k
        simp only [replaceE, ← hk]
        cases hx : eqE (Expr.not a) k <;>
          simp [hx, h, eqE, eqE_refl, eqE_congr_replace a f k v h]
  | .and a1 a2, y, k, v, h => by
      cases y <;> try exact (Bool.false_ne_true h).elim
      next f1 f2 =>
        have h2 : eqE a1 f1 = true ∧ eqE a2 f2 = true := by
          simpa only [eqE, Bool.and_eq_true] using h
        have hk := eqE_congr_key (x := Expr.and a1 a2) (y := Expr.and f1 f2) h k
        simp only [replaceE, ← hk]
        cases hx : eqE (Expr.and a1 a2) k <;>
          simp [hx, h, eqE, eqE_refl, eqE_congr_replace a1 f1 k v h2.1,
            eqE_congr_replace a2 f2 k v h2.2]
  | .or a1 a2, y, k, v, h => by
      cases y <;> try exact (Bool.false_ne_true h).elim
      next f1 f2 =>
        have h2 : eqE a1 f1 = true ∧ eqE a2 f2 = true := by
          simpa only [eqE, Bool.and_eq_true] using h
        have hk := eqE_congr_key (x := Expr.or a1 a2) (y := Expr.or f1 f2) h k
        simp only [replaceE, ← hk]
        cases hx : eqE (Expr.or a1 a2) k <;>
          simp [hx, h, eqE, eqE_refl, eqE_congr_replace a1 f1 k v h2.1,
            eqE_congr_replace a2 f2 k v h2.2]
  | .implies a1 a2, y, k, v, h => by
      cases y <;> try exact (Bool.false_ne_true h).elim
      next f1 f2 =>
        have h2 : eqE a1 f1 = true ∧ eqE a2 f2 = true := by
          simpa only [eqE, Bool.and_eq_true] using h
        have hk := eqE_congr_key (x := Expr.implies a1 a2) (y := Expr.implies f1 f2) h k
        simp only [replaceE, ← hk]
        cases hx : eqE (Expr.implies a1 a2) k <;>
          simp [hx, h, eqE, eqE_refl, eqE_congr_replace a1 f1 k v h2.1,
            eqE_congr_replace a2 f2 k v h2.2]
  | .forAll w a, y, k, v, h => by
      cases y <;> try exact (Bool.false_ne_true h).elim
      next v2 f =>
        have h2 : eqE w v2 = true ∧ eqE a f = true := by
          simpa only [eqE, Bool.and_eq_true] using h
        have hk := eqE_congr_key (x := Expr.forAll w a) (y := Expr.forAll v2 f) h k
        simp only [replaceE, ← hk]
        cases hx : eqE (Expr.forAll w a) k <;>
          simp [hx, h, eqE, eqE_refl, eqE_congr_replace w v2 k v h2.1,
            eqE_congr_replace a f k v h2.2]
  | .thereExists w a, y, k, v, h => by
      cases y <;> try exact (Bool.false_ne_true h).elim
      next v2 f =>
        have h2 : eqE w v2 = true ∧ eqE a f = true := by
          simpa only [eqE, Bool.and_eq_true] using h
        have hk := eqE_congr_key (x := Expr.thereExists w a) (y := Expr.thereExists v2 f) h k
        simp only [replaceE, ← hk]
        cases hx : eqE (Expr.thereExists w a) k <;>
          simp [hx, h, eqE, eqE_refl, eqE_congr_replace w v2 k v h2.1,
            eqE_congr_replace a f k v h2.2]

theorem eqL_congr_replace : ∀ (xs ys : ExprList) (k v : Expr), eqL xs ys = true →
    eqL (replaceL xs k v) (replaceL ys k v) = true
  | .nil, ys, k, v, h => by
      cases ys <;> try exact (Bool.false_ne_true h).elim
      simp [replaceL, eqL]
  | .cons x xs, ys, k, v, h => by
      cases ys <;> try exact (Bool.false_ne_true h).elim
      next y ys2 =>
        have h2 : eqE x y = true ∧ eqL xs ys2 = true := by
          simpa only [eqL, Bool.and_eq_true] using h
        show eqL (.cons (replaceE x k v) (replaceL xs k v))
          (.cons (replaceE y k v) (replaceL ys2 k v)) = true
        simp only [eqL, Bool.and_eq_true]
        exact ⟨eqE_congr_replace x y k v h2.1, eqL_congr_replace xs ys2 k v h2.2⟩

end

/-! ### `replace` on expressions that do not contain the target -/

mutual

theorem replace_id_of_not_contains : ∀ (e c w : Expr), containsE e c = false →
    eqE (replaceE e c w) e = true
  | .var n t, c, w, h => by
      have h2 : eqE (Expr.var n t) c = false := by simpa [containsE] using h
      simp [replaceE, h2, eqE_refl]
  | .term n t, c, w, h => by
      have h2 : eqE (Expr.term n t) c = false := by simpa [containsE] using h
      simp [replaceE, h2, eqE_refl]
  | .functor n as t, c, w, h => by
      have h2 : eqE (Expr.functor n as t) c = false ∧ containsL as c = false := by
        simpa [containsE, Bool.or_eq_false_iff] using h
      simp [replaceE, h2.1, eqE, replace_id_of_not_containsL as c w h2.2]
  | .pred n as, c, w, h => by
      have h2 : eqE (Expr.pred n as) c = false ∧ containsL as c = false := by
        simpa [containsE, Bool.or_eq_false_iff] using h
      simp [replaceE, h2.1, eqE, replace_id_of_not_containsL as c w h2.2]
  | .not a, c, w, h => by
      have h2 : eqE (Expr.not a) c = false ∧ containsE a c = false := by
        simpa [containsE, Bool.or_eq_false_iff] using h
      simp [replaceE, h2.1, eqE, replace_id_of_not_contains a c w h2.2]
  | .and a1 a2, c, w, h => by
      have h2 : eqE (Expr.and a1 a2) c = false ∧ containsE a1 c = false ∧
          containsE a2 c = false := by
        simpa [containsE, Bool.or_eq_false_iff, and_assoc] using h
      simp [replaceE, h2.1, eqE, replace_id_of_not_contains a1 c w h2.2.1,
        replace_id_of_not_contains a2 c w h2.2.2]
  | .or a1 a2, c, w, h => by
      have h2 : eqE (Expr.or a1 a2) c = false ∧ containsE a1 c = false ∧
          containsE a2 c = false := by
        simpa [containsE, Bool.or_eq_false_iff, and_assoc] using h
      simp [replaceE, h2.1, eqE, replace_id_of_not_contains a1 c w h2.2.1,
        replace_id_of_not_contains a2 c w h2.2.2]
  | .implies a1 a2, c, w, h => by
      have h2 : eqE (Expr.implies a1 a2) c = false ∧ containsE a1 c = false ∧
          containsE a2 c = false := by
        simpa [containsE, Bool.or_eq_false_iff, and_assoc] using h
      simp [replaceE, h2.1, eqE, replace_id_of_not_contains a1 c w h2.2.1,
        replace_id_of_not_contains a2 c w h2.2.2]
  | .forAll v a, c, w, h => by
      have h2 : eqE (Expr.forAll v a) c = false ∧ containsE v c = false ∧
          containsE a c = false := by
        simpa [containsE, Bool.or_eq_false_iff, and_assoc] using h
      simp [replaceE, h2.1, eqE, replace_id_of_not_contains v c w h2.2.1,
        replace_id_of_not_contains a c w h2.2.2]
  | .thereExists v a, c, w, h => by
      have h2 : eqE (Expr.thereExists v a) c = false ∧ containsE v c = false ∧
          containsE a c = false := by
        simpa [containsE, Bool.or_eq_false_iff, and_assoc] using h
      simp [replaceE, h2.1, eqE, replace_id_of_not_contains v c w h2.2.1,
        replace_id_of_not_contains a c w h2.2.2]

theorem replace_id_of_not_containsL : ∀ (es : ExprList) (c w : Expr),
    containsL es c = false → eqL (replaceL es c w) es = true
  | .nil, c, w, h => rfl
  | .cons e es, c, w, h => by
      have h2 : containsE e c = false ∧ containsL es c = false := by
        simpa [containsL, Bool.or_eq_false_iff] using h
      simp [replaceL, eqL, replace_id_of_not_contains e c w h2.1,
        replace_id_of_not_containsL es c w h2.2]

end

mutual

/-- `replace` never creates a new occurrence of a `Variable` or `Term`
target that the replacement expression does not contain. -/
theorem contains_replace_free : ∀ (e c w : Expr),
    isVar c = true ∨ isTerm c = true → containsE w c = false →
    containsE (replaceE e c w) c = false
  | .var n t, c, w, hc, hw => by
      by_cases heq : eqE (Expr.var n t) c = true
      · simp [replaceE, heq, hw]
      · have heq2 : eqE (Expr.var n t) c = false := by simpa using heq
        simp [replaceE, heq2, containsE]
  | .term n t, c, w, hc, hw => by
      by_cases heq : eqE (Expr.term n t) c = true
      · simp [replaceE, heq, hw]
      · have heq2 : eqE (Expr.term n t) c = false := by simpa using heq
        simp [replaceE, heq2, containsE]
  | .functor n as t, c, w, hc, hw => by
      by_cases heq : eqE (Expr.functor n as t) c = true
      · simp [replaceE, heq, hw]
      · have heq2 : eqE (Expr.functor n as t) c = false := by simpa using heq
        have hnode : eqE (Expr.functor n (replaceL as c w) 0) c = false := by
          rcases hc with h | h <;> cases c <;> simp [isVar, isTerm] at h <;> simp [eqE]
        simp [replaceE, heq2, containsE, hnode,
          containsL_replace_free as c w hc hw]
  | .pred n as, c, w, hc, hw => by
      by_cases heq : eqE (Expr.pred n as) c = true
      · simp [replaceE, heq, hw]
      · have heq2 : eqE (Expr.pred n as) c = false := by simpa using heq
        have hnode : eqE (Expr.pred n (replaceL as c w)) c = false := by
          rcases hc with h | h <;> cases c <;> simp [isVar, isTerm] at h <;> simp [eqE]
        simp [replaceE, heq2, containsE, hnode,
          containsL_replace_free as c w hc hw]
  | .not a, c, w, hc, hw => by
      by_cases heq : eqE (Expr.not a) c = true
      · simp [replaceE, heq, hw]
      · have heq2 : eqE (Expr.not a) c = false := by simpa using heq
        have hnode : eqE (Expr.not (replaceE a c w)) c = false := by
          rcases hc with h | h <;> cases c <;> simp [isVar, isTerm] at h <;> simp [eqE]
        simp [replaceE, heq2, containsE, hnode, contains_replace_free a c w hc hw]
  | .and a1 a2, c, w, hc, hw => by
      by_cases heq : eqE (Expr.and a1 a2) c = true
      · simp [replaceE, heq, hw]
      · have heq2 : eqE (Expr.and a1 a2) c = false := by simpa using heq
        have hnode : eqE (Expr.and (replaceE a1 c w) (replaceE a2 c w)) c = false := by
          rcases hc with h | h <;> cases c <;> simp [isVar, isTerm] at h <;> simp [eqE]
        simp [replaceE, heq2, containsE, hnode, contains_replace_free a1 c w hc hw,
          contains_replace_free a2 c w hc hw]
  | .or a1 a2, c, w, hc, hw => by
      by_cases heq : eqE (Expr.or a1 a2) c = true
      · simp [replaceE, heq, hw]
      · have heq2 : eqE (Expr.or a1 a2) c = false := by simpa using heq
        have hnode : eqE (Expr.or (replaceE a1 c w) (replaceE a2 c w)) c = false := by
          rcases hc with h | h <;> cases c <;> simp [isVar, isTerm] at h <;> simp [eqE]
        simp [replaceE, heq2, containsE, hnode, contains_replace_free a1 c w hc hw,
          contains_replace_free a2 c w hc hw]
  | .implies a1 a2, c, w, hc, hw => by
      by_cases heq : eqE (Expr.implies a1 a2) c = true
      · simp [replaceE, heq, hw]
      · have heq2 : eqE (Expr.implies a1 a2) c = false := by simpa using heq
        have hnode : eqE (Expr.implies (replaceE a1 c w) (replaceE a2 c w)) c = false := by
          rcases hc with h | h <;> cases c <;> simp [isVar, isTerm] at h <;> simp [eqE]
        simp [replaceE, heq2, containsE, hnode, contains_replace_free a1 c w hc hw,
          contains_replace_free a2 c w hc hw]
  | .forAll v a, c, w, hc, hw => by
      by_cases heq : eqE (Expr.forAll v a) c = true
      · simp [replaceE, heq, hw]
      · have heq2 : eqE (Expr.forAll v a) c = false := by simpa using heq
        have hnode : eqE (Expr.forAll (replaceE v c w) (replaceE a c w)) c = false := by
          rcases hc with h | h <;> cases c <;> simp [isVar, isTerm] at h <;> simp [eqE]
        simp [replaceE, heq2, containsE, hnode, contains_replace_free v c w hc hw,
          contains_replace_free a c w hc hw]
  | .thereExists v a, c, w, hc, hw => by
      by_cases heq : eqE (Expr.thereExists v a) c = true
      · simp [replaceE, heq, hw]
      · have heq2 : eqE (Expr.thereExists v a) c = false := by simpa using heq
        have hnode : eqE (Expr.thereExists (replaceE v c w) (replaceE a c w)) c = false := by
          rcases hc with h | h <;> cases c <;> simp [isVar, isTerm] at h <;> simp [eqE]
        simp [replaceE, heq2, containsE, hnode, contains_replace_free v c w hc hw,
          contains_replace_free a c w hc hw]

theorem containsL_replace_free : ∀ (es : ExprList) (c w : Expr),
    isVar c = true ∨ isTerm c = true → containsE w c = false →
    containsL (replaceL es c w) c = false
  | .nil, c, w, hc, hw => rfl
  | .cons e es, c, w, hc, hw => by
      simp [replaceL, containsL, contains_replace_free e c w hc hw,
        containsL_replace_free es c w hc hw]

end

/-! ### Derived print/hash congruences -/

theorem printE_eq_of_eqE (a b : Expr) (h : eqE a b = true) : printE a = printE b := by
  rw [← printE_strip a, ← printE_strip b, (eqE_iff_strip a b).mp h]

theorem hashE_congr (a b : Expr) (h : eqE a b = true) : hashE a = hashE b := by
  have hp := printE_eq_of_eqE a b h
  cases a <;> cases b <;>
    first
      | exact (Bool.false_ne_true h).elim
      | simp [hashE, hp]

/-! ### Claims C4, C10, C9, C2 -/

/-- C4: the claim that `a == b` iff `print(a) == print(b)` is false: a
`Variable` and a `Term` of the same name print identically but do not
compare equal (`__eq__` checks `isinstance`). -/
theorem c4_counterexample :
    printE (Expr.var "x" 0) = printE (Expr.term "x" 0) ∧
    eqE (Expr.var "x" 0) (Expr.term "x" 0) = false :=
  ⟨rfl, rfl⟩

/-- C4 (amended): structural equality implies equal printed form, and hence
equal hash — every class that defines `__hash__` returns the hash of the
printed form (`Functor`, which defines `__eq__` but no `__hash__`, is
unhashable, and `hashE` agrees on both sides there too).  The converse
direction of the claim fails (see the counterexample). -/
theorem c4_eq_implies_print_hash (a b : Expr) (h : eqE a b = true) :
    printE a = printE b ∧ hashE a = hashE b :=
  ⟨printE_eq_of_eqE a b h, hashE_congr a b h⟩

theorem c4_witness :
    eqE (Expr.var "x" 0) (Expr.var "x" 3) = true ∧
    (printE (Expr.var "x" 0) = printE (Expr.var "x" 3) ∧
      hashE (Expr.var "x" 0) = hashE (Expr.var "x" 3)) :=
  ⟨rfl, c4_eq_implies_print_hash (Expr.var "x" 0) (Expr.var "x" 3) rfl⟩

/-- C10: structural equality, the printed form and the hash are invariant
under `set_creation_time` (on either argument); in particular two `Term`s
(or `Variable`s) with the same name and different creation times are equal
and hash equal. -/
theorem c10_time_mutation_invariant (a b : Expr) (t : Nat) (n : String) (t1 t2 : Nat) :
    eqE (setTime a t) b = eqE a b ∧ eqE a (setTime b t) = eqE a b ∧
    printE (setTime a t) = printE a ∧ hashE (setTime a t) = hashE a ∧
    eqE (Expr.term n t1) (Expr.term n t2) = true ∧
    hashE (Expr.term n t1) = hashE (Expr.term n t2) ∧
    eqE (Expr.var n t1) (Expr.var n t2) = true ∧
    hashE (Expr.var n t1) = hashE (Expr.var n t2) := by
  have hset : eqE (setTime a t) a = true :=
    (eqE_iff_strip (setTime a t) a).mpr (stripE_setTime a t)
  refine ⟨?_, ?_, ?_, hashE_congr (setTime a t) a hset, ?_, ?_, ?_, ?_⟩
  · exact boolEqOfIff (by rw [eqE_iff_strip, eqE_iff_strip, stripE_setTime])
  · exact boolEqOfIff (by rw [eqE_iff_strip, eqE_iff_strip, stripE_setTime])
  · rw [← printE_strip (setTime a t), stripE_setTime, printE_strip]
  · simp [eqE]
  · exact hashE_congr (Expr.term n t1) (Expr.term n t2) (by simp [eqE])
  · simp [eqE]
  · exact hashE_congr (Expr.var n t1) (Expr.var n t2) (by simp [eqE])

/-- C9: `replace` is not idempotent in general even when `n` does not
contain `c`: rebuilding children can create a fresh node equal to `c`.
With `e = f(f(b))`, `c = f(b)`, `n = b`: the first replacement yields
`f(b) = c`, the second collapses it to `b`. -/
theorem c9_counterexample :
    containsE (Expr.var "b" 0) (Expr.functor "f" (.cons (.var "b" 0) .nil) 0) = false ∧
    eqE
      (replaceE
        (replaceE
          (Expr.functor "f" (.cons (.functor "f" (.cons (.var "b" 0) .nil) 0) .nil) 0)
          (Expr.functor "f" (.cons (.var "b" 0) .nil) 0) (Expr.var "b" 0))
        (Expr.functor "f" (.cons (.var "b" 0) .nil) 0) (Expr.var "b" 0))
      (replaceE
        (Expr.functor "f" (.cons (.functor "f" (.cons (.var "b" 0) .nil) 0) .nil) 0)
        (Expr.functor "f" (.cons (.var "b" 0) .nil) 0) (Expr.var "b" 0)) = false :=
  ⟨rfl, rfl⟩

/-- C9 (amended): `replace` is idempotent whenever the target `c` is a
`Variable` or a `Term` (the only targets the prover ever substitutes for)
and `n` does not contain `c`; for composite `c` the rebuilt children can
recreate `c` (see the counterexample). -/
theorem c9_replace_idempotent (e c n : Expr) (hc : isVar c = true ∨ isTerm c = true)
    (hn : containsE n c = false) :
    eqE (replaceE (replaceE e c n) c n) (replaceE e c n) = true :=
  replace_id_of_not_contains (replaceE e c n) c n (contains_replace_free e c n hc hn)

theorem c9_witness :
    (isVar (Expr.var "x" 0) = true ∨ isTerm (Expr.var "x" 0) = true) ∧
    containsE (Expr.var "y" 0) (Expr.var "x" 0) = false ∧
    eqE
      (replaceE (replaceE (Expr.not (.pred "P" (.cons (.var "x" 0) .nil)))
        (Expr.var "x" 0) (Expr.var "y" 0)) (Expr.var "x" 0) (Expr.var "y" 0))
      (replaceE (Expr.not (.pred "P" (.cons (.var "x" 0) .nil)))
        (Expr.var "x" 0) (Expr.var "y" 0)) = true :=
  ⟨Or.inl rfl, rfl,
    c9_replace_idempotent (Expr.not (.pred "P" (.cons (.var "x" 0) .nil)))
      (Expr.var "x" 0) (Expr.var "y" 0) (Or.inl rfl) rfl⟩

/-- C2: the claim is false as stated: `unify` compares only the top-level
`time` attribute of the candidate expression, and `replace`-rebuilt
`Functor`s reset that attribute to `0` while their children keep later
creation times.  Here the bound expression `f(v)` has top-level time `0`
but contains the subexpression `v` with creation time `5 > 1`, yet `unify`
returns the binding. -/
theorem c2_counterexample :
    anyTimeGT (Expr.functor "f" (.cons (.var "v" 5) .nil) 0) 1 = true ∧
    unify 1 (Expr.term "t" 1) (Expr.functor "f" (.cons (.var "v" 5) .nil) 0) =
      some (.ok (some [(Expr.term "t" 1, Expr.functor "f" (.cons (.var "v" 5) .nil) 0)])) :=
  ⟨rfl, rfl⟩

/-- C2 (amended): `unify(Term τ, e)` (and symmetrically) returns the failure
sentinel whenever the *top-level* `time` attribute of `e` exceeds τ's
creation time; creation times of proper subexpressions are not examined,
and expressions without a `time` attribute raise `AttributeError` instead
of failing. -/
theorem c2_unify_top_time_check (fuel t tb : Nat) (n : String) (e : Expr)
    (h1 : getTime e = some tb) (h2 : t < tb) :
    unify (fuel+1) (Expr.term n t) e = some (.ok none) ∧
    (isTerm e = false → unify (fuel+1) e (Expr.term n t) = some (.ok none)) := by
  refine ⟨?_, ?_⟩
  · cases hocc : occursE e (Expr.term n t) <;> simp [unify, hocc, h1, h2]
  · intro hnt
    cases e
    case var m u =>
        have hu : u = tb := by simpa [getTime] using h1
        subst hu
        simp [unify, occursE, getTime, h2]
    case term m u => simp [isTerm] at hnt
    case functor m bs u =>
        have hu : u = tb := by simpa [getTime] using h1
        subst hu
        cases hocc : occursE (Expr.functor m bs u) (Expr.term n t) <;>
          simp [unify, hocc, getTime, h2]
    all_goals simp [getTime] at h1

theorem c2_witness :
    getTime (Expr.functor "c" .nil 4) = some 4 ∧ (1 : Nat) < 4 ∧
    unify 1 (Expr.term "t" 1) (Expr.functor "c" .nil 4) = some (.ok none) ∧
    (isTerm (Expr.functor "c" .nil 4) = false →
      unify 1 (Expr.functor "c" .nil 4) (Expr.term "t" 1) = some (.ok none)) :=
  ⟨rfl, by decide,
    (c2_unify_top_time_check 0 1 4 "t" (Expr.functor "c" .nil 4) rfl (by decide)).1,
    (c2_unify_top_time_check 0 1 4 "t" (Expr.functor "c" .nil 4) rfl (by decide)).2⟩

/-! ### Claim C1: the dequeue loop -/

theorem lastD_concat : ∀ (rest : List Sequent) (x d : Sequent), lastD (rest ++ [x]) d = x
  | [], x, d => rfl
  | r :: rs, x, d => lastD_concat rs x r

theorem dequeueLoop_not_mem (proven : List Sequent) (q : Sequent)
    (frontier : List Sequent) (h : seqSetMem q proven = false) :
    dequeueLoop proven (some q) frontier = (some q, frontier) := by
  cases frontier <;> simp [dequeueLoop, h]

theorem firstNonProven_not_mem (proven : List Sequent) :
    ∀ (frontier : List Sequent) (s : Sequent) (rest : List Sequent),
      firstNonProven proven frontier = some (s, rest) → seqSetMem s proven = false
  | [], s, rest, h => by simp [firstNonProven] at h
  | f :: fs, s, rest, h => by
      simp only [firstNonProven] at h
      cases hf : seqSetMem f proven
      · rw [hf] at h
        simp at h
        rw [← h.1]
        exact hf
      · rw [hf] at h
        simp at h
        exact firstNonProven_not_mem proven fs s rest h

theorem firstNonProven_none_all (proven : List Sequent) :
    ∀ (frontier : List Sequent), firstNonProven proven frontier = none →
      ∀ x ∈ frontier, seqSetMem x proven = true
  | [], _, x, hx => by simp at hx
  | f :: fs, h, x, hx => by
      simp only [firstNonProven] at h
      cases hf : seqSetMem f proven
      · rw [hf] at h; simp at h
      · rw [hf] at h
        simp at h
        rcases List.mem_cons.mp hx with rfl | hx2
        · exact hf
        · exact firstNonProven_none_all proven fs h x hx2

theorem dequeueLoop_first (proven : List Sequent) :
    ∀ (frontier : List Sequent) (q : Sequent) (s : Sequent) (rest : List Sequent),
      seqSetMem q proven = true → firstNonProven proven frontier = some (s, rest) →
      dequeueLoop proven (some q) frontier = (some s, rest)
  | [], q, s, rest, hq, h => by simp [firstNonProven] at h
  | f :: fs, q, s, rest, hq, h => by
      rw [show dequeueLoop proven (some q) (f :: fs) =
        if seqSetMem q proven then dequeueLoop proven (some f) fs
        else (some q, f :: fs) from rfl]
      rw [if_pos hq]
      simp only [firstNonProven] at h
      cases hf : seqSetMem f proven
      · rw [hf] at h
        simp at h
        rw [dequeueLoop_not_mem proven f fs hf, h.1, h.2]
      · rw [hf] at h
        simp at h
        exact dequeueLoop_first proven fs f s rest hf h

theorem dequeueLoop_exhaust (proven : List Sequent) :
    ∀ (frontier : List Sequent) (q : Sequent),
      seqSetMem q proven = true → firstNonProven proven frontier = none →
      dequeueLoop proven (some q) frontier = (some (lastD frontier q), [])
  | [], q, hq, h => rfl
  | f :: fs, q, hq, h => by
      rw [show dequeueLoop proven (some q) (f :: fs) =
        if seqSetMem q proven then dequeueLoop proven (some f) fs
        else (some q, f :: fs) from rfl]
      rw [if_pos hq]
      simp only [firstNonProven] at h
      cases hf : seqSetMem f proven
      · rw [hf] at h; simp at h
      · rw [hf] at h
        simp at h
        exact dequeueLoop_exhaust proven fs f hf h

/-- C1: the claim that a dequeued sequent is never in `proven` is false:
when the frontier holds only proven sequents, the inner `while` exits with
the last popped sequent still bound, and it is processed.  With the goal
sequent both on the frontier and in `proven` (the initial state of every
search), the very first iteration processes a member of `proven`. -/
theorem c1_counterexample :
    dequeueLoop [Sequent.mk [] [(Expr.pred "P" .nil, 0)] none 0] none
        [Sequent.mk [] [(Expr.pred "P" .nil, 0)] none 0] =
      (some (Sequent.mk [] [(Expr.pred "P" .nil, 0)] none 0), []) ∧
    seqSetMem (Sequent.mk [] [(Expr.pred "P" .nil, 0)] none 0)
      [Sequent.mk [] [(Expr.pred "P" .nil, 0)] none 0] = true :=
  ⟨rfl, rfl⟩

/-- C1 (amended): the dequeue loop returns `none` (and the search reports
provable) only when the frontier is empty at the start of the iteration; if
some frontier sequent is not in `proven`, the first such sequent is
dequeued (and it is not in `proven`); but if the frontier is non-empty and
every entry is in `proven`, the **last** frontier entry — a member of
`proven` — is dequeued and processed (in particular the goal sequent, which
starts in `proven`, is processed in the first iteration). -/
theorem c1_dequeue_characterisation (proven frontier : List Sequent) :
    (frontier = [] → dequeueLoop proven none frontier = (none, [])) ∧
    (∀ s rest, firstNonProven proven frontier = some (s, rest) →
      dequeueLoop proven none frontier = (some s, rest) ∧ seqSetMem s proven = false) ∧
    (firstNonProven proven frontier = none → ∀ s rest, frontier = rest ++ [s] →
      dequeueLoop proven none frontier = (some s, []) ∧ seqSetMem s proven = true) := by
  refine ⟨?_, ?_, ?_⟩
  · rintro rfl; rfl
  · intro s rest h
    refine ⟨?_, firstNonProven_not_mem proven frontier s rest h⟩
    cases frontier with
    | nil => simp [firstNonProven] at h
    | cons f fs =>
        rw [show dequeueLoop proven none (f :: fs) = dequeueLoop proven (some f) fs from rfl]
        simp only [firstNonProven] at h
        cases hf : seqSetMem f proven
        · rw [hf] at h
          simp at h
          rw [dequeueLoop_not_mem proven f fs hf, h.1, h.2]
        · rw [hf] at h
          simp at h
          exact dequeueLoop_first proven fs f s rest hf h
  · intro hnone s rest hdec
    have hs : seqSetMem s proven = true :=
      firstNonProven_none_all proven frontier hnone s (by
        rw [hdec]; exact List.mem_append_right rest (List.mem_singleton.mpr rfl))
    refine ⟨?_, hs⟩
    cases frontier with
    | nil => exact absurd hdec.symm (by simp)
    | cons f fs =>
        rw [show dequeueLoop proven none (f :: fs) = dequeueLoop proven (some f) fs from rfl]
        simp only [firstNonProven] at hnone
        cases hf : seqSetMem f proven
        · rw [hf] at hnone; simp at hnone
        · rw [hf] at hnone
          simp at hnone
          rw [dequeueLoop_exhaust proven fs f hf hnone]
          have h2 : lastD fs f = s := by
            rw [show lastD fs f = lastD (f :: fs) f from rfl, hdec]
            exact lastD_concat rest s f
          rw [h2]

/-! ### Claim C5: formula selection for rule expansion -/

theorem scanStep_none (acc : Option Expr × Option Nat) (q : Expr × Nat)
    (ha : acc.2 = none) (hnp : isPred q.1 = false) :
    scanStep acc q = (some q.1, some q.2) := by
  simp [scanStep, ha, hnp]

theorem scanStep_update (acc : Option Expr × Option Nat) (q : Expr × Nat) (d0 : Nat)
    (ha : acc.2 = some d0) :
    (scanStep acc q = acc ∧ (isPred q.1 = true ∨ d0 ≤ q.2)) ∨
    (scanStep acc q = (some q.1, some q.2) ∧ isPred q.1 = false ∧ q.2 < d0) := by
  by_cases hlt : q.2 < d0
  · cases hp : isPred q.1
    · right
      exact ⟨by simp [scanStep, ha, hlt, hp], rfl, hlt⟩
    · left
      exact ⟨by simp [scanStep, ha, hlt, hp], Or.inl rfl⟩
  · left
    refine ⟨by simp [scanStep, ha, hlt], Or.inr (by omega)⟩

theorem scan_mono : ∀ (l : FDict) (acc : Option Expr × Option Nat) (bf : Expr) (bd d0 : Nat),
    l.foldl scanStep acc = (some bf, some bd) → acc.2 = some d0 → bd ≤ d0
  | [], acc, bf, bd, d0, h, ha => by
      simp [List.foldl] at h
      rw [h] at ha
      simp at ha
      omega
  | q :: rest, acc, bf, bd, d0, h, ha => by
      rw [List.foldl_cons] at h
      rcases scanStep_update acc q d0 ha with ⟨hstep, _⟩ | ⟨hstep, _, hlt⟩
      · rw [hstep] at h
        exact scan_mono rest acc bf bd d0 h ha
      · rw [hstep] at h
        have := scan_mono rest _ bf bd q.2 h rfl
        omega

theorem scan_min : ∀ (l : FDict) (acc : Option Expr × Option Nat) (bf : Expr) (bd : Nat),
    l.foldl scanStep acc = (some bf, some bd) →
    ∀ p ∈ l, isPred p.1 = false → bd ≤ p.2
  | [], acc, bf, bd, h, p, hp, hnp => by simp at hp
  | q :: rest, acc, bf, bd, h, p, hp, hnp => by
      rw [List.foldl_cons] at h
      rcases List.mem_cons.mp hp with heq | hp2
      · rw [heq] at hnp ⊢
        cases hacc : acc.2 with
        | none =>
            rw [scanStep_none acc q hacc hnp] at h
            exact scan_mono rest _ bf bd q.2 h rfl
        | some d0 =>
            rcases scanStep_update acc q d0 hacc with ⟨hstep, hor⟩ | ⟨hstep, _, hlt⟩
            · rw [hstep] at h
              have h1 := scan_mono rest acc bf bd d0 h hacc
              rcases hor with hpred | hle
              · rw [hnp] at hpred; exact absurd hpred (by simp)
              · omega
            · rw [hstep] at h
              exact scan_mono rest _ bf bd q.2 h rfl
      · exact scan_min rest (scanStep acc q) bf bd h p hp2 hnp

theorem scanStep_cases (acc : Option Expr × Option Nat) (q : Expr × Nat) :
    scanStep acc q = acc ∨
    (scanStep acc q = (some q.1, some q.2) ∧ isPred q.1 = false) := by
  cases hacc : acc.2 with
  | none =>
      cases hp : isPred q.1
      · right
        exact ⟨scanStep_none acc q hacc hp, rfl⟩
      · left
        simp [scanStep, hacc, hp]
  | some d0 =>
      rcases scanStep_update acc q d0 hacc with ⟨hstep, _⟩ | ⟨hstep, hnp, _⟩
      · exact Or.inl hstep
      · exact Or.inr ⟨hstep, hnp⟩

theorem scan_mem : ∀ (l : FDict) (acc : Option Expr × Option Nat) (bf : Expr) (bd : Nat),
    l.foldl scanStep acc = (some bf, some bd) →
    (acc.1 = some bf ∧ acc.2 = some bd) ∨ ((bf, bd) ∈ l ∧ isPred bf = false)
  | [], acc, bf, bd, h => by
      simp [List.foldl] at h
      rw [h]
      exact Or.inl ⟨rfl, rfl⟩
  | q :: rest, acc, bf, bd, h => by
      rw [List.foldl_cons] at h
      rcases scan_mem rest (scanStep acc q) bf bd h with hacc | hmem
      · rcases scanStep_cases acc q with hstep | ⟨hstep, hq⟩
        · rw [hstep] at hacc
          exact Or.inl hacc
        · rw [hstep] at hacc
          simp at hacc
          right
          refine ⟨?_, by rw [← hacc.1]; exact hq⟩
          have hqe : (bf, bd) = q := by
            rw [← hacc.1, ← hacc.2]
          rw [hqe]
          exact List.mem_cons_self q rest
      · exact Or.inr ⟨List.mem_cons_of_mem q hmem.1, hmem.2⟩

/-- C5: the tie-breaking claim is false: with non-atomic formulas of equal
minimal depth on both sides, the source's `if left_depth < right_depth`
test sends ties to the **right** rule, not the left. -/
theorem c5_counterexample :
    scanSide [(Expr.not (.pred "P" .nil), 0)] =
      (some (Expr.not (.pred "P" .nil)), some 0) ∧
    scanSide [(Expr.not (.pred "Q" .nil), 0)] =
      (some (Expr.not (.pred "Q" .nil)), some 0) ∧
    selectFlags [(Expr.not (.pred "P" .nil), 0)] [(Expr.not (.pred "Q" .nil), 0)] =
      (false, true) :=
  ⟨rfl, rfl, rfl⟩

/-- C5 (amended): each side's scan selects a non-`Predicate` entry of
minimal expansion depth (the depth comparison precedes the atomicity filter
but predicate entries never update the running state), and when both sides
have non-atomic formulas the left rule is applied iff the left minimum is
strictly smaller — depth ties are broken in favour of the **right** side. -/
theorem c5_selection (left right : FDict) (lf rf : Expr) (ld rd : Nat)
    (hl : scanSide left = (some lf, some ld)) (hr : scanSide right = (some rf, some rd)) :
    selectFlags left right = (decide (ld < rd), !decide (ld < rd)) ∧
    ((lf, ld) ∈ left ∧ isPred lf = false ∧ (∀ p ∈ left, isPred p.1 = false → ld ≤ p.2)) ∧
    ((rf, rd) ∈ right ∧ isPred rf = false ∧ (∀ p ∈ right, isPred p.1 = false → rd ≤ p.2)) := by
  refine ⟨?_, ?_, ?_⟩
  · by_cases hlt : ld < rd <;> simp [selectFlags, hl, hr, hlt]
  · rcases scan_mem left (none, none) lf ld hl with hacc | hmem
    · simp at hacc
    · exact ⟨hmem.1, hmem.2, scan_min left (none, none) lf ld hl⟩
  · rcases scan_mem right (none, none) rf rd hr with hacc | hmem
    · simp at hacc
    · exact ⟨hmem.1, hmem.2, scan_min right (none, none) rf rd hr⟩

theorem c5_witness :
    scanSide [(Expr.not (.pred "P" .nil), 0)] =
      (some (Expr.not (.pred "P" .nil)), some 0) ∧
    scanSide [(Expr.not (.pred "Q" .nil), 1)] =
      (some (Expr.not (.pred "Q" .nil)), some 1) ∧
    selectFlags [(Expr.not (.pred "P" .nil), 0)] [(Expr.not (.pred "Q" .nil), 1)] =
      (decide ((0:Nat) < 1), !decide ((0:Nat) < 1)) :=
  ⟨rfl, rfl,
    (c5_selection [(Expr.not (.pred "P" .nil), 0)] [(Expr.not (.pred "Q" .nil), 1)]
      (Expr.not (.pred "P" .nil)) (Expr.not (.pred "Q" .nil)) 0 1 rfl rfl).1⟩

/-! ### Formula-dict lemmas -/

theorem eqE_congr_key_right (x : Expr) {k k' : Expr} (h : eqE k k' = true) :
    eqE x k = eqE x k' := by
  rw [eqE_symm x k, eqE_congr_key h x, eqE_symm k' x]

theorem fdictMem_congr (d : FDict) {k k' : Expr} (h : eqE k k' = true) :
    fdictMem d k = fdictMem d k' := by
  induction d with
  | nil => rfl
  | cons p rest ih =>
      simp only [fdictMem, List.any_cons] at *
      rw [eqE_congr_key_right p.1 h, ih]

theorem any_key_map (d : FDict) (k : Expr) (v : Nat) (x : Expr) :
    (d.map (fun p => if eqE p.1 k then (p.1, v) else p)).any (fun q => eqE q.1 x) =
      d.any (fun q => eqE q.1 x) := by
  induction d with
  | nil => rfl
  | cons p rest ih =>
      by_cases h : eqE p.1 k = true <;> simp [List.any_cons, h, ih]

theorem fdictMem_set (d : FDict) (k : Expr) (v : Nat) (x : Expr) :
    fdictMem (fdictSet d k v) x = (fdictMem d x || eqE k x) := by
  by_cases hm : fdictMem d k = true
  · rw [fdictSet, if_pos hm]
    show (d.map _).any _ = _
    rw [any_key_map]
    by_cases hx : eqE k x = true
    · have hdx : fdictMem d x = true := by rw [← fdictMem_congr d hx]; exact hm
      show fdictMem d x = (fdictMem d x || eqE k x)
      rw [hdx, hx]
      rfl
    · rw [show eqE k x = false from by simpa using hx]
      simp [fdictMem]
  · rw [fdictSet, if_neg hm]
    simp [fdictMem, List.any_append]

theorem fdictMem_set_self (d : FDict) (k : Expr) (v : Nat) :
    fdictMem (fdictSet d k v) k = true := by
  rw [fdictMem_set, eqE_refl]
  simp

theorem fdictMem_set_mono (d : FDict) (k : Expr) (v : Nat) (x : Expr)
    (h : fdictMem d x = true) : fdictMem (fdictSet d k v) x = true := by
  rw [fdictMem_set, h]
  rfl

theorem fdictGet_cons (p : Expr × Nat) (rest : FDict) (k : Expr) :
    fdictGet (p :: rest) k = if eqE p.1 k then p.2 else fdictGet rest k := by
  by_cases h : eqE p.1 k = true <;> simp [fdictGet, List.find?_cons, h]

theorem fdictGet_set_self : ∀ (d : FDict) (k : Expr) (v : Nat),
    fdictGet (fdictSet d k v) k = v
  | [], k, v => by
      rw [fdictSet, if_neg (by simp [fdictMem])]
      rw [List.nil_append, fdictGet_cons, if_pos (eqE_refl k)]
  | p :: rest, k, v => by
      by_cases h1 : eqE p.1 k = true
      · have hm : fdictMem (p :: rest) k = true := by simp [fdictMem, h1]
        rw [fdictSet, if_pos hm]
        simp only [List.map_cons, if_pos h1]
        rw [fdictGet_cons, if_pos h1]
      · have hmem : fdictMem (p :: rest) k = fdictMem rest k := by
          simp [fdictMem, List.any_cons, h1]
        cases hm : fdictMem rest k
        · have hm2 : fdictMem (p :: rest) k = false := by rw [hmem, hm]
          rw [fdictSet, if_neg (by simp [hm2])]
          rw [List.cons_append, fdictGet_cons, if_neg h1]
          have ih := fdictGet_set_self rest k v
          rwa [fdictSet, if_neg (by simp [hm])] at ih
        · have hm2 : fdictMem (p :: rest) k = true := by rw [hmem, hm]
          rw [fdictSet, if_pos hm2]
          simp only [List.map_cons, if_neg h1]
          rw [fdictGet_cons, if_neg h1]
          have ih := fdictGet_set_self rest k v
          rwa [fdictSet, if_pos hm] at ih

theorem fdictGet_map_set_ne : ∀ (d : FDict) (k : Expr) (v : Nat) (x : Expr),
    eqE k x = false →
    fdictGet (d.map (fun p => if eqE p.1 k then (p.1, v) else p)) x = fdictGet d x
  | [], k, v, x, h => rfl
  | p :: rest, k, v, x, h => by
      by_cases h1 : eqE p.1 k = true
      · have hx : eqE p.1 x = false := by rw [eqE_congr_key h1 x]; exact h
        simp only [List.map_cons, if_pos h1]
        rw [fdictGet_cons, fdictGet_cons, if_neg (by simp [hx]), if_neg (by simp [hx])]
        exact fdictGet_map_set_ne rest k v x h
      · simp only [List.map_cons, if_neg h1]
        rw [fdictGet_cons, fdictGet_cons]
        by_cases hx : eqE p.1 x = true
        · simp [hx]
        · rw [if_neg hx, if_neg hx]
          exact fdictGet_map_set_ne rest k v x h

theorem fdictGet_append_single_ne : ∀ (d : FDict) (k : Expr) (v : Nat) (x : Expr),
    eqE k x = false → fdictGet (d ++ [(k, v)]) x = fdictGet d x
  | [], k, v, x, h => by
      rw [List.nil_append, fdictGet_cons, if_neg (by simp [h])]
  | p :: rest, k, v, x, h => by
      rw [List.cons_append, fdictGet_cons, fdictGet_cons]
      by_cases hx : eqE p.1 x = true
      · simp [hx]
      · rw [if_neg hx, if_neg hx]
        exact fdictGet_append_single_ne rest k v x h

theorem fdictGet_set_ne (d : FDict) (k : Expr) (v : Nat) (x : Expr)
    (h : eqE k x = false) : fdictGet (fdictSet d k v) x = fdictGet d x := by
  by_cases hm : fdictMem d k = true
  · rw [fdictSet, if_pos hm]
    exact fdictGet_map_set_ne d k v x h
  · rw [fdictSet, if_neg hm]
    exact fdictGet_append_single_ne d k v x h

theorem fdictKeysUnique_map_set : ∀ (d : FDict) (k : Expr) (v : Nat),
    fdictKeysUnique d = true →
    fdictKeysUnique (d.map (fun p => if eqE p.1 k then (p.1, v) else p)) = true
  | [], k, v, h => rfl
  | p :: rest, k, v, h => by
      simp only [fdictKeysUnique, Bool.and_eq_true] at h
      simp only [List.map_cons, fdictKeysUnique, Bool.and_eq_true]
      refine ⟨?_, fdictKeysUnique_map_set rest k v h.2⟩
      rw [show ((if eqE p.1 k then ((p.1 : Expr), v) else p) : Expr × Nat).1 = p.1 from by
        by_cases h2 : eqE p.1 k = true <;> simp [h2]]
      rw [any_key_map rest k v p.1]
      exact h.1

theorem fdictKeysUnique_append : ∀ (d : FDict) (k : Expr) (v : Nat),
    fdictMem d k = false → fdictKeysUnique d = true →
    fdictKeysUnique (d ++ [(k, v)]) = true
  | [], k, v, hm, hu => by simp [fdictKeysUnique]
  | p :: rest, k, v, hm, hu => by
      simp only [fdictMem, List.any_cons, Bool.or_eq_false_iff] at hm
      simp only [fdictKeysUnique, Bool.and_eq_true] at hu
      simp only [List.cons_append, fdictKeysUnique, Bool.and_eq_true]
      constructor
      · simp only [List.append_eq, List.any_append, List.any_cons, List.any_nil]
        have h1 : rest.any (fun q => eqE q.1 p.1) = false := by simpa using hu.1
        have h2 : eqE k p.1 = false := by rw [eqE_symm k p.1]; exact hm.1
        simp [h1, h2]
      · exact fdictKeysUnique_append rest k v hm.2 hu.2

theorem fdictKeysUnique_set (d : FDict) (k : Expr) (v : Nat)
    (hu : fdictKeysUnique d = true) : fdictKeysUnique (fdictSet d k v) = true := by
  by_cases hm : fdictMem d k = true
  · rw [fdictSet, if_pos hm]
    exact fdictKeysUnique_map_set d k v hu
  · rw [fdictSet, if_neg hm]
    exact fdictKeysUnique_append d k v (by simpa using hm) hu

/-! ### Claim C7: the ∀-left and ∃-right rules keep the quantifier -/

/-- C7: after a ∀-left (resp. ∃-right) step the quantified formula is still
present on the same side with its expansion counter incremented by exactly
one; the freshly instantiated subformula is present, and it was added only
if no `==`-equal formula already existed (when one existed the side is just
the incremented dict, so keys stay pairwise distinct and repeated
instantiations with different fresh names can coexist); the other side and
the depth behave as in the source. -/
theorem c7_quantifier_kept (old : Sequent) (lf rf : Expr)
    (hl : fdictMem old.left lf = true) (hlu : fdictKeysUnique old.left = true)
    (hr : fdictMem old.right rf = true) (hru : fdictKeysUnique old.right = true) :
    (fdictMem (applyForAllLeft old lf).left lf = true ∧
     fdictGet (applyForAllLeft old lf).left lf = fdictGet old.left lf + 1 ∧
     fdictMem (applyForAllLeft old lf).left (forAllLeftInst old lf) = true ∧
     fdictKeysUnique (applyForAllLeft old lf).left = true ∧
     (fdictMem (fdictSet old.left lf (fdictGet old.left lf + 1)) (forAllLeftInst old lf)
        = true →
      (applyForAllLeft old lf).left = fdictSet old.left lf (fdictGet old.left lf + 1)) ∧
     (fdictMem (fdictSet old.left lf (fdictGet old.left lf + 1)) (forAllLeftInst old lf)
        = false →
      fdictGet (applyForAllLeft old lf).left (forAllLeftInst old lf) =
        fdictGet old.left lf + 1) ∧
     (applyForAllLeft old lf).right = old.right ∧
     (applyForAllLeft old lf).depth = old.depth + 1) ∧
    (fdictMem (applyThereExistsRight old rf).right rf = true ∧
     fdictGet (applyThereExistsRight old rf).right rf = fdictGet old.right rf + 1 ∧
     fdictMem (applyThereExistsRight old rf).right (thereExistsRightInst old rf) = true ∧
     fdictKeysUnique (applyThereExistsRight old rf).right = true ∧
     (fdictMem (fdictSet old.right rf (fdictGet old.right rf + 1))
        (thereExistsRightInst old rf) = true →
      (applyThereExistsRight old rf).right =
        fdictSet old.right rf (fdictGet old.right rf + 1)) ∧
     (fdictMem (fdictSet old.right rf (fdictGet old.right rf + 1))
        (thereExistsRightInst old rf) = false →
      fdictGet (applyThereExistsRight old rf).right (thereExistsRightInst old rf) =
        fdictGet old.right rf + 1) ∧
     (applyThereExistsRight old rf).left = old.left ∧
     (applyThereExistsRight old rf).depth = old.depth + 1) := by
  constructor
  · have hleft : (applyForAllLeft old lf).left =
        (if fdictMem (fdictSet old.left lf (fdictGet old.left lf + 1))
            (forAllLeftInst old lf) then
          fdictSet old.left lf (fdictGet old.left lf + 1)
        else
          fdictSet (fdictSet old.left lf (fdictGet old.left lf + 1))
            (forAllLeftInst old lf)
            (fdictGet (fdictSet old.left lf (fdictGet old.left lf + 1)) lf)) := by
      cases old
      rfl
    by_cases hmem : fdictMem (fdictSet old.left lf (fdictGet old.left lf + 1))
        (forAllLeftInst old lf) = true
    · rw [hleft, if_pos hmem]
      refine ⟨fdictMem_set_self _ _ _, fdictGet_set_self _ _ _, hmem,
        fdictKeysUnique_set _ _ _ hlu, fun _ => rfl, ?_, ?_, ?_⟩
      · intro hfalse
        rw [hmem] at hfalse
        exact absurd hfalse (by simp)
      · cases old
        rfl
      · cases old
        rfl
    · have hmem2 : fdictMem (fdictSet old.left lf (fdictGet old.left lf + 1))
          (forAllLeftInst old lf) = false := by simpa using hmem
      have hne : eqE (forAllLeftInst old lf) lf = false := by
        by_cases he : eqE (forAllLeftInst old lf) lf = true
        · have := fdictMem_congr (fdictSet old.left lf (fdictGet old.left lf + 1)) he
          rw [hmem2, fdictMem_set_self] at this
          exact absurd this (by simp)
        · simpa using he
      rw [hleft, if_neg (by simp [hmem2])]
      rw [fdictGet_set_self]
      refine ⟨?_, ?_, fdictMem_set_self _ _ _, ?_, ?_, ?_, ?_, ?_⟩
      · exact fdictMem_set_mono _ _ _ _ (fdictMem_set_self _ _ _)
      · rw [fdictGet_set_ne _ _ _ _ hne, fdictGet_set_self]
      · exact fdictKeysUnique_set _ _ _ (fdictKeysUnique_set _ _ _ hlu)
      · intro htrue
        rw [hmem2] at htrue
        exact absurd htrue (by simp)
      · intro _
        rw [fdictGet_set_self]
      · cases old
        rfl
      · cases old
        rfl
  · have hright : (applyThereExistsRight old rf).right =
        (if fdictMem (fdictSet old.right rf (fdictGet old.right rf + 1))
            (thereExistsRightInst old rf) then
          fdictSet old.right rf (fdictGet old.right rf + 1)
        else
          fdictSet (fdictSet old.right rf (fdictGet old.right rf + 1))
            (thereExistsRightInst old rf)
            (fdictGet (fdictSet old.right rf (fdictGet old.right rf + 1)) rf)) := by
      cases old
      rfl
    by_cases hmem : fdictMem (fdictSet old.right rf (fdictGet old.right rf + 1))
        (thereExistsRightInst old rf) = true
    · rw [hright, if_pos hmem]
      refine ⟨fdictMem_set_self _ _ _, fdictGet_set_self _ _ _, hmem,
        fdictKeysUnique_set _ _ _ hru, fun _ => rfl, ?_, ?_, ?_⟩
      · intro hfalse
        rw [hmem] at hfalse
        exact absurd hfalse (by simp)
      · cases old
        rfl
      · cases old
        rfl
    · have hmem2 : fdictMem (fdictSet old.right rf (fdictGet old.right rf + 1))
          (thereExistsRightInst old rf) = false := by simpa using hmem
      have hne : eqE (thereExistsRightInst old rf) rf = false := by
        by_cases he : eqE (thereExistsRightInst old rf) rf = true
        · have := fdictMem_congr (fdictSet old.right rf (fdictGet old.right rf + 1)) he
          rw [hmem2, fdictMem_set_self] at this
          exact absurd this (by simp)
        · simpa using he
      rw [hright, if_neg (by simp [hmem2])]
      rw [fdictGet_set_self]
      refine ⟨?_, ?_, fdictMem_set_self _ _ _, ?_, ?_, ?_, ?_, ?_⟩
      · exact fdictMem_set_mono _ _ _ _ (fdictMem_set_self _ _ _)
      · rw [fdictGet_set_ne _ _ _ _ hne, fdictGet_set_self]
      · exact fdictKeysUnique_set _ _ _ (fdictKeysUnique_set _ _ _ hru)
      · intro htrue
        rw [hmem2] at htrue
        exact absurd htrue (by simp)
      · intro _
        rw [fdictGet_set_self]
      · cases old
        rfl
      · cases old
        rfl

theorem c7_witness :
    fdictMem (Sequent.mk
      [(Expr.forAll (.var "x" 0) (.pred "P" (.cons (.var "x" 0) .nil)), 0)]
      [(Expr.thereExists (.var "y" 0) (.pred "Q" (.cons (.var "y" 0) .nil)), 0)]
      none 0).left
      (Expr.forAll (.var "x" 0) (.pred "P" (.cons (.var "x" 0) .nil))) = true ∧
    fdictGet (applyForAllLeft
      (Sequent.mk
        [(Expr.forAll (.var "x" 0) (.pred "P" (.cons (.var "x" 0) .nil)), 0)]
        [(Expr.thereExists (.var "y" 0) (.pred "Q" (.cons (.var "y" 0) .nil)), 0)]
        none 0)
      (Expr.forAll (.var "x" 0) (.pred "P" (.cons (.var "x" 0) .nil)))).left
      (Expr.forAll (.var "x" 0) (.pred "P" (.cons (.var "x" 0) .nil))) = 1 :=
  ⟨rfl,
    ((c7_quantifier_kept
      (Sequent.mk
        [(Expr.forAll (.var "x" 0) (.pred "P" (.cons (.var "x" 0) .nil)), 0)]
        [(Expr.thereExists (.var "y" 0) (.pred "Q" (.cons (.var "y" 0) .nil)), 0)]
        none 0)
      (Expr.forAll (.var "x" 0) (.pred "P" (.cons (.var "x" 0) .nil)))
      (Expr.thereExists (.var "y" 0) (.pred "Q" (.cons (.var "y" 0) .nil)))
      rfl rfl rfl rfl).1).2.1⟩

/-! ### Claim C8: sibling-closure atomicity -/

theorem fdictMem_of_mem {d : FDict} {p : Expr × Nat} (h : p ∈ d) :
    fdictMem d p.1 = true := by
  simp only [fdictMem, List.any_eq_true]
  exact ⟨p, h, eqE_refl p.1⟩

theorem pyEqSeq_refl (s : Sequent) : pyEqSeq s s = true := by
  simp only [pyEqSeq, Bool.and_eq_true, List.all_eq_true]
  exact ⟨⟨⟨fun p hp => fdictMem_of_mem hp, fun p hp => fdictMem_of_mem hp⟩,
    fun p hp => fdictMem_of_mem hp⟩, fun p hp => fdictMem_of_mem hp⟩

theorem seqSetMem_of_mem {s : Sequent} {l : List Sequent} (h : s ∈ l) :
    seqSetMem s l = true := by
  simp only [seqSetMem, List.any_eq_true]
  exact ⟨s, h, by simp [pyEqSeq_refl]⟩

theorem seqSetMem_union_right (proven sibs : List Sequent) (s : Sequent)
    (hs : s ∈ sibs) : seqSetMem s (pyUnionSeqs proven sibs) = true := by
  rw [pyUnionSeqs]
  cases hp : seqSetMem s proven
  · have : s ∈ sibs.filter (fun x => !seqSetMem x proven) :=
      List.mem_filter.mpr ⟨hs, by simp [hp]⟩
    have h2 := seqSetMem_of_mem (List.mem_append_right proven this)
    exact h2
  · simp only [seqSetMem, List.any_append] at *
    rw [hp]
    rfl

/-- C8: when the sibling check closes a group (every sibling has candidate
pairs and some simultaneous choice unifies under `unify_list`), every
member of the group is in the updated `proven` set and no element of the
filtered frontier is a member of the group — the group closes atomically
before the next iteration of the main loop. -/
theorem c8_sibling_closure (fuel : Nat) (sibs proven frontier p2 f2 : List Sequent)
    (h : siblingStep fuel sibs proven frontier = some (p2, f2)) :
    (∀ s ∈ sibs, seqSetMem s p2 = true) ∧ (∀ q ∈ f2, seqSetMem q sibs = false) := by
  rw [siblingStep] at h
  cases h0 : getPairLists fuel sibs with
  | none => rw [h0] at h; simp at h
  | some ex =>
      rw [h0] at h
      cases ex with
      | error e => simp at h
      | ok pls =>
          simp only [] at h
          by_cases hall : pls.all (fun l => !l.isEmpty) = true
          · rw [if_pos hall] at h
            cases h1 : trySubsts fuel (productChoices pls) with
            | none => rw [h1] at h; simp at h
            | some ex2 =>
                rw [h1] at h
                cases ex2 with
                | error e => simp at h
                | ok osub =>
                    cases osub with
                    | none => simp at h
                    | some sub =>
                        simp only [Option.some.injEq, Prod.mk.injEq] at h
                        obtain ⟨hp2, hf2⟩ := h
                        subst hp2
                        subst hf2
                        constructor
                        · intro s hs
                          exact seqSetMem_union_right proven sibs s hs
                        · intro q hq
                          have := (List.mem_filter.mp hq).2
                          simpa using this
          · rw [if_neg hall] at h
            simp at h

theorem c8_witness :
    siblingStep 2
      [Sequent.mk [(Expr.pred "P" (.cons (.term "t1" 1) .nil), 0)]
        [(Expr.pred "P" (.cons (.functor "c" .nil 0) .nil), 0)] (some []) 1]
      []
      [Sequent.mk [(Expr.pred "P" (.cons (.term "t1" 1) .nil), 0)]
        [(Expr.pred "P" (.cons (.functor "c" .nil 0) .nil), 0)] (some []) 1] =
      some
        ([Sequent.mk [(Expr.pred "P" (.cons (.term "t1" 1) .nil), 0)]
          [(Expr.pred "P" (.cons (.functor "c" .nil 0) .nil), 0)] (some []) 1], []) ∧
    (∀ s ∈ [Sequent.mk [(Expr.pred "P" (.cons (.term "t1" 1) .nil), 0)]
        [(Expr.pred "P" (.cons (.functor "c" .nil 0) .nil), 0)] (some []) 1],
      seqSetMem s
        [Sequent.mk [(Expr.pred "P" (.cons (.term "t1" 1) .nil), 0)]
          [(Expr.pred "P" (.cons (.functor "c" .nil 0) .nil), 0)] (some []) 1] = true) ∧
    (∀ q ∈ ([] : List Sequent),
      seqSetMem q
        [Sequent.mk [(Expr.pred "P" (.cons (.term "t1" 1) .nil), 0)]
          [(Expr.pred "P" (.cons (.functor "c" .nil 0) .nil), 0)] (some []) 1] = false) :=
  ⟨rfl,
    (c8_sibling_closure 2
      [Sequent.mk [(Expr.pred "P" (.cons (.term "t1" 1) .nil), 0)]
        [(Expr.pred "P" (.cons (.functor "c" .nil 0) .nil), 0)] (some []) 1]
      []
      [Sequent.mk [(Expr.pred "P" (.cons (.term "t1" 1) .nil), 0)]
        [(Expr.pred "P" (.cons (.functor "c" .nil 0) .nil), 0)] (some []) 1]
      [Sequent.mk [(Expr.pred "P" (.cons (.term "t1" 1) .nil), 0)]
        [(Expr.pred "P" (.cons (.functor "c" .nil 0) .nil), 0)] (some []) 1]
      [] rfl).1,
    (c8_sibling_closure 2
      [Sequent.mk [(Expr.pred "P" (.cons (.term "t1" 1) .nil), 0)]
        [(Expr.pred "P" (.cons (.functor "c" .nil 0) .nil), 0)] (some []) 1]
      []
      [Sequent.mk [(Expr.pred "P" (.cons (.term "t1" 1) .nil), 0)]
        [(Expr.pred "P" (.cons (.functor "c" .nil 0) .nil), 0)] (some []) 1]
      [Sequent.mk [(Expr.pred "P" (.cons (.term "t1" 1) .nil), 0)]
        [(Expr.pred "P" (.cons (.functor "c" .nil 0) .nil), 0)] (some []) 1]
      [] rfl).2⟩

/-! ### Claim C6: exception behaviour of `unify` -/

theorem pack_none (C : Subst → Prop) :
    (∀ e, (none : Option (Except String (Option Subst))) ≠ some (.error e)) ∧
    (∀ σ, (none : Option (Except String (Option Subst))) = some (.ok (some σ)) → C σ) :=
  ⟨fun e h => by simp at h, fun σ h => by simp at h⟩

theorem pack_oknone (C : Subst → Prop) :
    (∀ e, (some (.ok none) : Option (Except String (Option Subst))) ≠ some (.error e)) ∧
    (∀ σ, (some (.ok none) : Option (Except String (Option Subst))) =
      some (.ok (some σ)) → C σ) :=
  ⟨fun e h => by simp at h, fun σ h => by simp at h⟩

theorem pack_oksome (C : Subst → Prop) (σ0 : Subst) (h : C σ0) :
    (∀ e, (some (.ok (some σ0)) : Option (Except String (Option Subst))) ≠
      some (.error e)) ∧
    (∀ σ, (some (.ok (some σ0)) : Option (Except String (Option Subst))) =
      some (.ok (some σ)) → C σ) :=
  ⟨fun e hh => by simp at hh, fun σ hh => by
    simp only [Option.some.injEq, Except.ok.injEq] at hh
    rwa [← hh]⟩

mutual

theorem pureTerm_replace : ∀ (x c v : Expr), pureTermE x = true → pureTermE v = true →
    pureTermE (replaceE x c v) = true
  | .var n t, c, v, hx, hv => by
      by_cases he : eqE (Expr.var n t) c = true
      · simp [replaceE, he, hv]
      · simp [replaceE, he, pureTermE]
  | .term n t, c, v, hx, hv => by
      by_cases he : eqE (Expr.term n t) c = true
      · simp [replaceE, he, hv]
      · simp [replaceE, he, pureTermE]
  | .functor n as t, c, v, hx, hv => by
      by_cases he : eqE (Expr.functor n as t) c = true
      · simp [replaceE, he, hv]
      · have hp : pureTermL as = true := hx
        simp [replaceE, he, pureTermE, pureTermL_replace as c v hp hv]
  | .pred n as, c, v, hx, hv => by simp [pureTermE] at hx
  | .not a, c, v, hx, hv => by simp [pureTermE] at hx
  | .and a1 a2, c, v, hx, hv => by simp [pureTermE] at hx
  | .or a1 a2, c, v, hx, hv => by simp [pureTermE] at hx
  | .implies a1 a2, c, v, hx, hv => by simp [pureTermE] at hx
  | .forAll w a, c, v, hx, hv => by simp [pureTermE] at hx
  | .thereExists w a, c, v, hx, hv => by simp [pureTermE] at hx

theorem pureTermL_replace : ∀ (es : ExprList) (c v : Expr), pureTermL es = true →
    pureTermE v = true → pureTermL (replaceL es c v) = true
  | .nil, c, v, hx, hv => rfl
  | .cons e es, c, v, hx, hv => by
      have h2 : pureTermE e = true ∧ pureTermL es = true := by
        simpa [pureTermL, Bool.and_eq_true] using hx
      simp [replaceL, pureTermL, pureTerm_replace e c v h2.1 hv,
        pureTermL_replace es c v h2.2 hv]

end

theorem pureTerm_applyItems : ∀ (S : Subst) (x : Expr),
    (∀ p ∈ S, pureTermE p.2 = true) → pureTermE x = true →
    pureTermE (applyItems S x) = true
  | [], x, hS, hx => hx
  | (k, v) :: rest, x, hS, hx => by
      rw [show applyItems ((k, v) :: rest) x = applyItems rest (replaceE x k v) from rfl]
      exact pureTerm_applyItems rest _ (fun p hp => hS p (List.mem_cons_of_mem _ hp))
        (pureTerm_replace x k v hx (hS (k, v) (List.mem_cons_self _ _)))

theorem dictUpdate_values (S : Subst) (k v : Expr)
    (hS : ∀ p ∈ S, pureTermE p.2 = true) (hv : pureTermE v = true) :
    ∀ p ∈ dictUpdate S k v, pureTermE p.2 = true := by
  intro p hp
  rw [dictUpdate] at hp
  by_cases hm : substMemKey k S = true
  · rw [if_pos hm] at hp
    obtain ⟨q, hq, rfl⟩ := List.mem_map.mp hp
    by_cases he : eqE q.1 k = true
    · rw [if_pos he]
      exact hv
    · rw [if_neg he]
      exact hS q hq
  · rw [if_neg hm] at hp
    rcases List.mem_append.mp hp with h1 | h2
    · exact hS p h1
    · simp at h2
      rw [h2]
      exact hv

theorem dictUpdateAll_values : ∀ (T S : Subst),
    (∀ p ∈ S, pureTermE p.2 = true) → (∀ p ∈ T, pureTermE p.2 = true) →
    ∀ p ∈ dictUpdateAll S T, pureTermE p.2 = true
  | [], S, hS, hT => hS
  | (k, v) :: rest, S, hS, hT => by
      rw [show dictUpdateAll S ((k, v) :: rest) = dictUpdateAll (dictUpdate S k v) rest
        from rfl]
      exact dictUpdateAll_values rest _
        (dictUpdate_values S k v hS (hT (k, v) (List.mem_cons_self _ _)))
        (fun p hp => hT p (List.mem_cons_of_mem _ hp))

theorem unifyChildren_pure (u : Expr → Expr → Option (Except String (Option Subst)))
    (hu : ∀ a b, pureTermE a = true → pureTermE b = true →
      (∀ e, u a b ≠ some (.error e)) ∧
      (∀ σ, u a b = some (.ok (some σ)) → ∀ p ∈ σ, pureTermE p.2 = true)) :
    ∀ (as bs : ExprList) (S : Subst), pureTermL as = true → pureTermL bs = true →
      (∀ p ∈ S, pureTermE p.2 = true) →
      (∀ e, unifyChildren u S as bs ≠ some (.error e)) ∧
      (∀ σ, unifyChildren u S as bs = some (.ok (some σ)) →
        ∀ p ∈ σ, pureTermE p.2 = true)
  | .nil, .nil, S, ha, hb, hS => by
      rw [show unifyChildren u S .nil .nil = some (.ok (some S)) from rfl]
      exact pack_oksome _ S hS
  | .nil, .cons b bs, S, ha, hb, hS => by
      rw [show unifyChildren u S .nil (.cons b bs) = some (.ok none) from rfl]
      exact pack_oknone _
  | .cons a as, .nil, S, ha, hb, hS => by
      rw [show unifyChildren u S (.cons a as) .nil = some (.ok none) from rfl]
      exact pack_oknone _
  | .cons a as, .cons b bs, S, ha, hb, hS => by
      have ha2 : pureTermE a = true ∧ pureTermL as = true := by
        simpa [pureTermL, Bool.and_eq_true] using ha
      have hb2 : pureTermE b = true ∧ pureTermL bs = true := by
        simpa [pureTermL, Bool.and_eq_true] using hb
      have hpa := pureTerm_applyItems S a hS ha2.1
      have hpb := pureTerm_applyItems S b hS hb2.1
      have hu2 := hu _ _ hpa hpb
      cases hres : u (applyItems S a) (applyItems S b) with
      | none =>
          rw [show unifyChildren u S (.cons a as) (.cons b bs) = none from by
            simp [unifyChildren, hres]]
          exact pack_none _
      | some ex =>
          cases ex with
          | error e => exact absurd hres (hu2.1 e)
          | ok osub =>
              cases osub with
              | none =>
                  rw [show unifyChildren u S (.cons a as) (.cons b bs) = some (.ok none)
                    from by simp [unifyChildren, hres]]
                  exact pack_oknone _
              | some sub =>
                  rw [show unifyChildren u S (.cons a as) (.cons b bs) =
                    unifyChildren u (dictUpdateAll S sub) as bs from by
                      simp [unifyChildren, hres]]
                  exact unifyChildren_pure u hu as bs (dictUpdateAll S sub) ha2.2 hb2.2
                    (dictUpdateAll_values sub S hS (hu2.2 sub hres))

theorem unify_pure : ∀ (fuel : Nat) (a b : Expr), pureTermE a = true → pureTermE b = true →
    (∀ e, unify fuel a b ≠ some (.error e)) ∧
    (∀ σ, unify fuel a b = some (.ok (some σ)) → ∀ p ∈ σ, pureTermE p.2 = true)
  | 0, a, b, ha, hb =>
      ⟨fun e h => by simp [unify] at h, fun σ h => by simp [unify] at h⟩
  | fuel+1, a, b, ha, hb => by
      cases a with
      | term n t =>
          by_cases hocc : occursE b (Expr.term n t) = true
          · rw [show unify (fuel+1) (Expr.term n t) b = some (.ok none) from by
              simp [unify, hocc]]
            exact pack_oknone _
          · have hocc2 : occursE b (Expr.term n t) = false := by simpa using hocc
            cases b with
            | var m u =>
                rw [show unify (fuel+1) (Expr.term n t) (Expr.var m u) =
                  if t < u then some (.ok none)
                  else some (.ok (some [(Expr.term n t, Expr.var m u)])) from by
                    simp [unify, hocc2, getTime]]
                by_cases hlt : t < u
                · rw [if_pos hlt]
                  exact pack_oknone _
                · rw [if_neg hlt]
                  refine pack_oksome _ _ ?_
                  intro p hp
                  simp at hp
                  rw [hp]
                  rfl
            | term m u =>
                rw [show unify (fuel+1) (Expr.term n t) (Expr.term m u) =
                  if t < u then some (.ok none)
                  else some (.ok (some [(Expr.term n t, Expr.term m u)])) from by
                    simp [unify, hocc2, getTime]]
                by_cases hlt : t < u
                · rw [if_pos hlt]
                  exact pack_oknone _
                · rw [if_neg hlt]
                  refine pack_oksome _ _ ?_
                  intro p hp
                  simp at hp
                  rw [hp]
                  rfl
            | functor m bs u =>
                rw [show unify (fuel+1) (Expr.term n t) (Expr.functor m bs u) =
                  if t < u then some (.ok none)
                  else some (.ok (some [(Expr.term n t, Expr.functor m bs u)])) from by
                    simp [unify, hocc2, getTime]]
                by_cases hlt : t < u
                · rw [if_pos hlt]
                  exact pack_oknone _
                · rw [if_neg hlt]
                  refine pack_oksome _ _ ?_
                  intro p hp
                  simp at hp
                  rw [hp]
                  exact hb
            | pred m bs => simp [pureTermE] at hb
            | not f => simp [pureTermE] at hb
            | and f1 f2 => simp [pureTermE] at hb
            | or f1 f2 => simp [pureTermE] at hb
            | implies f1 f2 => simp [pureTermE] at hb
            | forAll w f => simp [pureTermE] at hb
            | thereExists w f => simp [pureTermE] at hb
      | var n t =>
          cases b with
          | term m u =>
              rw [show unify (fuel+1) (Expr.var n t) (Expr.term m u) =
                if u < t then some (.ok none)
                else some (.ok (some [(Expr.term m u, Expr.var n t)])) from by
                  simp [unify, occursE, getTime, eqE]]
              by_cases hlt : u < t
              · rw [if_pos hlt]
                exact pack_oknone _
              · rw [if_neg hlt]
                refine pack_oksome _ _ ?_
                intro p hp
                simp at hp
                rw [hp]
                rfl
          | var m u =>
              by_cases he : eqE (Expr.var n t) (Expr.var m u) = true
              · rw [show unify (fuel+1) (Expr.var n t) (Expr.var m u) =
                  some (.ok (some [])) from by simp [unify, he]]
                exact pack_oksome _ [] (by intro p hp; simp at hp)
              · rw [show unify (fuel+1) (Expr.var n t) (Expr.var m u) =
                  some (.ok none) from by
                    simp only [unify]
                    rw [if_neg he]]
                exact pack_oknone _
          | functor m bs u =>
              rw [show unify (fuel+1) (Expr.var n t) (Expr.functor m bs u) =
                some (.ok none) from by simp [unify]]
              exact pack_oknone _
          | pred m bs => simp [pureTermE] at hb
          | not f => simp [pureTermE] at hb
          | and f1 f2 => simp [pureTermE] at hb
          | or f1 f2 => simp [pureTermE] at hb
          | implies f1 f2 => simp [pureTermE] at hb
          | forAll w f => simp [pureTermE] at hb
          | thereExists w f => simp [pureTermE] at hb
      | functor n as t =>
          cases b with
          | term m u =>
              by_cases hocc : occursE (Expr.functor n as t) (Expr.term m u) = true
              · rw [show unify (fuel+1) (Expr.functor n as t) (Expr.term m u) =
                  some (.ok none) from by simp [unify, hocc]]
                exact pack_oknone _
              · have hocc2 : occursE (Expr.functor n as t) (Expr.term m u) = false := by
                  simpa using hocc
                rw [show unify (fuel+1) (Expr.functor n as t) (Expr.term m u) =
                  if u < t then some (.ok none)
                  else some (.ok (some [(Expr.term m u, Expr.functor n as t)])) from by
                    simp [unify, hocc2, getTime]]
                by_cases hlt : u < t
                · rw [if_pos hlt]
                  exact pack_oknone _
                · rw [if_neg hlt]
                  refine pack_oksome _ _ ?_
                  intro p hp
                  simp at hp
                  rw [hp]
                  exact ha
          | var m u =>
              rw [show unify (fuel+1) (Expr.functor n as t) (Expr.var m u) =
                some (.ok none) from by simp [unify]]
              exact pack_oknone _
          | functor m bs u =>
              by_cases hn : (n != m) = true
              · rw [show unify (fuel+1) (Expr.functor n as t) (Expr.functor m bs u) =
                  some (.ok none) from by simp [unify, hn]]
                exact pack_oknone _
              · by_cases hl : (lenL as != lenL bs) = true
                · rw [show unify (fuel+1) (Expr.functor n as t) (Expr.functor m bs u) =
                    some (.ok none) from by
                      simp only [unify]
                      rw [if_neg hn, if_pos hl]]
                  exact pack_oknone _
                · rw [show unify (fuel+1) (Expr.functor n as t) (Expr.functor m bs u) =
                    unifyChildren (unify fuel) [] as bs from by
                      simp only [unify]
                      rw [if_neg hn, if_neg hl]]
                  exact unifyChildren_pure (unify fuel)
                    (fun a b hpa hpb => unify_pure fuel a b hpa hpb) as bs [] ha hb
                    (by intro p hp; simp at hp)
          | pred m bs => simp [pureTermE] at hb
          | not f => simp [pureTermE] at hb
          | and f1 f2 => simp [pureTermE] at hb
          | or f1 f2 => simp [pureTermE] at hb
          | implies f1 f2 => simp [pureTermE] at hb
          | forAll w f => simp [pureTermE] at hb
          | thereExists w f => simp [pureTermE] at hb
      | pred m bs => simp [pureTermE] at ha
      | not f => simp [pureTermE] at ha
      | and f1 f2 => simp [pureTermE] at ha
      | or f1 f2 => simp [pureTermE] at ha
      | implies f1 f2 => simp [pureTermE] at ha
      | forAll w f => simp [pureTermE] at ha
      | thereExists w f => simp [pureTermE] at ha

/-- C6: totality without exceptions is false: `unify(Term, Not(...))`
evaluates `term_b.time` on a class with no `time` attribute and raises
`AttributeError` (the occurs check does not fire). -/
theorem c6_counterexample :
    unify 1 (Expr.term "t" 0) (Expr.not (.pred "P" .nil)) =
      some (.error "AttributeError") :=
  rfl

/-- C6 (amended): on the pure term algebra (`Variable`, `Term`, `Functor`
— the only shapes `unify` receives below the formula level) `unify` never
raises: at every recursion depth it yields a substitution or the failure
sentinel (or exhausts the modelled recursion fuel); a `Term` met by a
composite formula with no `time` attribute raises `AttributeError`
instead (see the counterexample). -/
theorem c6_unify_pure_no_exception (fuel : Nat) (a b : Expr)
    (ha : pureTermE a = true) (hb : pureTermE b = true) :
    ∀ e, unify fuel a b ≠ some (.error e) :=
  (unify_pure fuel a b ha hb).1

theorem c6_witness :
    pureTermE (Expr.functor "f" (.cons (.term "t" 0) .nil) 0) = true ∧
    pureTermE (Expr.functor "f" (.cons (.var "x" 0) .nil) 0) = true ∧
    ∀ e, unify 2 (Expr.functor "f" (.cons (.term "t" 0) .nil) 0)
      (Expr.functor "f" (.cons (.var "x" 0) .nil) 0) ≠ some (.error e) :=
  ⟨rfl, rfl,
    c6_unify_pure_no_exception 2 (Expr.functor "f" (.cons (.term "t" 0) .nil) 0)
      (Expr.functor "f" (.cons (.var "x" 0) .nil) 0) rfl rfl⟩

/-! ### Claim C3: soundness of `unify` — binder-slot lemmas -/

mutual

/-- In a tree without `Term` nodes, replacing a `Term` does nothing (up to
`==`): only `Term` nodes can compare equal to a `Term`. -/
theorem noTerm_replace_id : ∀ (e k w : Expr), hasTermNode e = false → isTerm k = true →
    eqE (replaceE e k w) e = true
  | .var n t, k, w, he, hk => by
      cases k <;> simp [isTerm] at hk
      simp [replaceE, eqE, eqE_refl]
  | .term n t, k, w, he, hk => by simp [hasTermNode] at he
  | .functor n as t, k, w, he, hk => by
      cases k <;> simp [isTerm] at hk
      next nm tm =>
        simp [replaceE, eqE, noTermL_replace_id as (Expr.term nm tm) w he rfl]
  | .pred n as, k, w, he, hk => by
      cases k <;> simp [isTerm] at hk
      next nm tm =>
        simp [replaceE, eqE, noTermL_replace_id as (Expr.term nm tm) w he rfl]
  | .not a, k, w, he, hk => by
      cases k <;> simp [isTerm] at hk
      next nm tm =>
        simp [replaceE, eqE, noTerm_replace_id a (Expr.term nm tm) w he rfl]
  | .and a1 a2, k, w, he, hk => by
      cases k <;> simp [isTerm] at hk
      next nm tm =>
        have h2 : hasTermNode a1 = false ∧ hasTermNode a2 = false := by
          simpa [hasTermNode, Bool.or_eq_false_iff] using he
        simp [replaceE, eqE, noTerm_replace_id a1 (Expr.term nm tm) w h2.1 rfl,
          noTerm_replace_id a2 (Expr.term nm tm) w h2.2 rfl]
  | .or a1 a2, k, w, he, hk => by
      cases k <;> simp [isTerm] at hk
      next nm tm =>
        have h2 : hasTermNode a1 = false ∧ hasTermNode a2 = false := by
          simpa [hasTermNode, Bool.or_eq_false_iff] using he
        simp [replaceE, eqE, noTerm_replace_id a1 (Expr.term nm tm) w h2.1 rfl,
          noTerm_replace_id a2 (Expr.term nm tm) w h2.2 rfl]
  | .implies a1 a2, k, w, he, hk => by
      cases k <;> simp [isTerm] at hk
      next nm tm =>
        have h2 : hasTermNode a1 = false ∧ hasTermNode a2 = false := by
          simpa [hasTermNode, Bool.or_eq_false_iff] using he
        simp [replaceE, eqE, noTerm_replace_id a1 (Expr.term nm tm) w h2.1 rfl,
          noTerm_replace_id a2 (Expr.term nm tm) w h2.2 rfl]
  | .forAll v a, k, w, he, hk => by
      cases k <;> simp [isTerm] at hk
      next nm tm =>
        have h2 : hasTermNode v = false ∧ hasTermNode a = false := by
          simpa [hasTermNode, Bool.or_eq_false_iff] using he
        simp [replaceE, eqE, noTerm_replace_id v (Expr.term nm tm) w h2.1 rfl,
          noTerm_replace_id a (Expr.term nm tm) w h2.2 rfl]
  | .thereExists v a, k, w, he, hk => by
      cases k <;> simp [isTerm] at hk
      next nm tm =>
        have h2 : hasTermNode v = false ∧ hasTermNode a = false := by
          simpa [hasTermNode, Bool.or_eq_false_iff] using he
        simp [replaceE, eqE, noTerm_replace_id v (Expr.term nm tm) w h2.1 rfl,
          noTerm_replace_id a (Expr.term nm tm) w h2.2 rfl]

theorem noTermL_replace_id : ∀ (es : ExprList) (k w : Expr), hasTermNodeL es = false →
    isTerm k = true → eqL (replaceL es k w) es = true
  | .nil, k, w, he, hk => rfl
  | .cons e es, k, w, he, hk => by
      have h2 : hasTermNode e = false ∧ hasTermNodeL es = false := by
        simpa [hasTermNodeL, Bool.or_eq_false_iff] using he
      simp [replaceL, eqL, noTerm_replace_id e k w h2.1 hk,
        noTermL_replace_id es k w h2.2 hk]

end

mutual

/-- Replacing a `Term` in a tree without `Term` nodes leaves it without
`Term` nodes. -/
theorem noTerm_replace_noTerm : ∀ (e k w : Expr), hasTermNode e = false →
    isTerm k = true → hasTermNode (replaceE e k w) = false
  | .var n t, k, w, he, hk => by
      cases k <;> simp [isTerm] at hk
      simp [replaceE, eqE, hasTermNode]
  | .term n t, k, w, he, hk => by simp [hasTermNode] at he
  | .functor n as t, k, w, he, hk => by
      cases k <;> simp [isTerm] at hk
      next nm tm =>
        simp [replaceE, eqE, hasTermNode,
          noTermL_replace_noTerm as (Expr.term nm tm) w he rfl]
  | .pred n as, k, w, he, hk => by
      cases k <;> simp [isTerm] at hk
      next nm tm =>
        simp [replaceE, eqE, hasTermNode,
          noTermL_replace_noTerm as (Expr.term nm tm) w he rfl]
  | .not a, k, w, he, hk => by
      cases k <;> simp [isTerm] at hk
      next nm tm =>
        simp [replaceE, eqE, hasTermNode,
          noTerm_replace_noTerm a (Expr.term nm tm) w he rfl]
  | .and a1 a2, k, w, he, hk => by
      cases k <;> simp [isTerm] at hk
      next nm tm =>
        have h2 : hasTermNode a1 = false ∧ hasTermNode a2 = false := by
          simpa [hasTermNode, Bool.or_eq_false_iff] using he
        simp [replaceE, eqE, hasTermNode,
          noTerm_replace_noTerm a1 (Expr.term nm tm) w h2.1 rfl,
          noTerm_replace_noTerm a2 (Expr.term nm tm) w h2.2 rfl]
  | .or a1 a2, k, w, he, hk => by
      cases k <;> simp [isTerm] at hk
      next nm tm =>
        have h2 : hasTermNode a1 = false ∧ hasTermNode a2 = false := by
          simpa [hasTermNode, Bool.or_eq_false_iff] using he
        simp [replaceE, eqE, hasTermNode,
          noTerm_replace_noTerm a1 (Expr.term nm tm) w h2.1 rfl,
          noTerm_replace_noTerm a2 (Expr.term nm tm) w h2.2 rfl]
  | .implies a1 a2, k, w, he, hk => by
      cases k <;> simp [isTerm] at hk
      next nm tm =>
        have h2 : hasTermNode a1 = false ∧ hasTermNode a2 = false := by
          simpa [hasTermNode, Bool.or_eq_false_iff] using he
        simp [replaceE, eqE, hasTermNode,
          noTerm_replace_noTerm a1 (Expr.term nm tm) w h2.1 rfl,
          noTerm_replace_noTerm a2 (Expr.term nm tm) w h2.2 rfl]
  | .forAll v a, k, w, he, hk => by
      cases k <;> simp [isTerm] at hk
      next nm tm =>
        have h2 : hasTermNode v = false ∧ hasTermNode a = false := by
          simpa [hasTermNode, Bool.or_eq_false_iff] using he
        simp [replaceE, eqE, hasTermNode,
          noTerm_replace_noTerm v (Expr.term nm tm) w h2.1 rfl,
          noTerm_replace_noTerm a (Expr.term nm tm) w h2.2 rfl]
  | .thereExists v a, k, w, he, hk => by
      cases k <;> simp [isTerm] at hk
      next nm tm =>
        have h2 : hasTermNode v = false ∧ hasTermNode a = false := by
          simpa [hasTermNode, Bool.or_eq_false_iff] using he
        simp [replaceE, eqE, hasTermNode,
          noTerm_replace_noTerm v (Expr.term nm tm) w h2.1 rfl,
          noTerm_replace_noTerm a (Expr.term nm tm) w h2.2 rfl]

theorem noTermL_replace_noTerm : ∀ (es : ExprList) (k w : Expr), hasTermNodeL es = false →
    isTerm k = true → hasTermNodeL (replaceL es k w) = false
  | .nil, k, w, he, hk => rfl
  | .cons e es, k, w, he, hk => by
      have h2 : hasTermNode e = false ∧ hasTermNodeL es = false := by
        simpa [hasTermNodeL, Bool.or_eq_false_iff] using he
      simp [replaceL, hasTermNodeL, noTerm_replace_noTerm e k w h2.1 hk,
        noTermL_replace_noTerm es k w h2.2 hk]

end

mutual

/-- Binder-cleanliness is preserved by replacing a `Term` with a
binder-clean expression. -/
theorem binderClean_replace : ∀ (e k w : Expr), binderClean e = true →
    binderClean w = true → isTerm k = true → binderClean (replaceE e k w) = true
  | .var n t, k, w, he, hw, hk => by
      by_cases h : eqE (Expr.var n t) k = true
      · simp [replaceE, h, hw]
      · simp [replaceE, h, binderClean]
  | .term n t, k, w, he, hw, hk => by
      by_cases h : eqE (Expr.term n t) k = true
      · simp [replaceE, h, hw]
      · simp [replaceE, h, binderClean]
  | .functor n as t, k, w, he, hw, hk => by
      cases k <;> simp [isTerm] at hk
      next nm tm =>
        simp [replaceE, eqE, binderClean,
          binderCleanL_replace as (Expr.term nm tm) w he hw rfl]
  | .pred n as, k, w, he, hw, hk => by
      cases k <;> simp [isTerm] at hk
      next nm tm =>
        simp [replaceE, eqE, binderClean,
          binderCleanL_replace as (Expr.term nm tm) w he hw rfl]
  | .not a, k, w, he, hw, hk => by
      cases k <;> simp [isTerm] at hk
      next nm tm =>
        simp [replaceE, eqE, binderClean,
          binderClean_replace a (Expr.term nm tm) w he hw rfl]
  | .and a1 a2, k, w, he, hw, hk => by
      cases k <;> simp [isTerm] at hk
      next nm tm =>
        have h2 : binderClean a1 = true ∧ binderClean a2 = true := by
          simpa [binderClean, Bool.and_eq_true] using he
        simp [replaceE, eqE, binderClean,
          binderClean_replace a1 (Expr.term nm tm) w h2.1 hw rfl,
          binderClean_replace a2 (Expr.term nm tm) w h2.2 hw rfl]
  | .or a1 a2, k, w, he, hw, hk => by
      cases k <;> simp [isTerm] at hk
      next nm tm =>
        have h2 : binderClean a1 = true ∧ binderClean a2 = true := by
          simpa [binderClean, Bool.and_eq_true] using he
        simp [replaceE, eqE, binderClean,
          binderClean_replace a1 (Expr.term nm tm) w h2.1 hw rfl,
          binderClean_replace a2 (Expr.term nm tm) w h2.2 hw rfl]
  | .implies a1 a2, k, w, he, hw, hk => by
      cases k <;> simp [isTerm] at hk
      next nm tm =>
        have h2 : binderClean a1 = true ∧ binderClean a2 = true := by
          simpa [binderClean, Bool.and_eq_true] using he
        simp [replaceE, eqE, binderClean,
          binderClean_replace a1 (Expr.term nm tm) w h2.1 hw rfl,
          binderClean_replace a2 (Expr.term nm tm) w h2.2 hw rfl]
  | .forAll v a, k, w, he, hw, hk => by
      cases k <;> simp [isTerm] at hk
      next nm tm =>
        have h2 : hasTermNode v = false ∧ binderClean a = true := by
          simpa [binderClean, Bool.and_eq_true] using he
        simp [replaceE, eqE, binderClean,
          noTerm_replace_noTerm v (Expr.term nm tm) w h2.1 rfl,
          binderClean_replace a (Expr.term nm tm) w h2.2 hw rfl]
  | .thereExists v a, k, w, he, hw, hk => by
      cases k <;> simp [isTerm] at hk
      next nm tm =>
        have h2 : hasTermNode v = false ∧ binderClean a = true := by
          simpa [binderClean, Bool.and_eq_true] using he
        simp [replaceE, eqE, binderClean,
          noTerm_replace_noTerm v (Expr.term nm tm) w h2.1 rfl,
          binderClean_replace a (Expr.term nm tm) w h2.2 hw rfl]

theorem binderCleanL_replace : ∀ (es : ExprList) (k w : Expr), binderCleanL es = true →
    binderClean w = true → isTerm k = true → binderCleanL (replaceL es k w) = true
  | .nil, k, w, he, hw, hk => rfl
  | .cons e es, k, w, he, hw, hk => by
      have h2 : binderClean e = true ∧ binderCleanL es = true := by
        simpa [binderCleanL, Bool.and_eq_true] using he
      simp [replaceL, binderCleanL, binderClean_replace e k w h2.1 hw hk,
        binderCleanL_replace es k w h2.2 hw hk]

end

mutual

/-- On binder-clean expressions the occurs check is faithful: replacing a
non-occurring `Term` is the identity up to `==`. -/
theorem replace_eq_self : ∀ (e k w : Expr), binderClean e = true → isTerm k = true →
    occursE e k = false → eqE (replaceE e k w) e = true
  | .var n t, k, w, hc, hk, ho => by
      cases k <;> simp [isTerm] at hk
      simp [replaceE, eqE, eqE_refl]
  | .term n t, k, w, hc, hk, ho => by
      have ho2 : eqE (Expr.term n t) k = false := ho
      simp [replaceE, ho2, eqE_refl]
  | .functor n as t, k, w, hc, hk, ho => by
      cases k <;> simp [isTerm] at hk
      next nm tm =>
        simp [replaceE, eqE, replaceL_eq_self as (Expr.term nm tm) w hc rfl ho]
  | .pred n as, k, w, hc, hk, ho => by
      cases k <;> simp [isTerm] at hk
      next nm tm =>
        simp [replaceE, eqE, replaceL_eq_self as (Expr.term nm tm) w hc rfl ho]
  | .not a, k, w, hc, hk, ho => by
      cases k <;> simp [isTerm] at hk
      next nm tm =>
        simp [replaceE, eqE, replace_eq_self a (Expr.term nm tm) w hc rfl ho]
  | .and a1 a2, k, w, hc, hk, ho => by
      cases k <;> simp [isTerm] at hk
      next nm tm =>
        have hc2 : binderClean a1 = true ∧ binderClean a2 = true := by
          simpa [binderClean, Bool.and_eq_true] using hc
        have ho2 : occursE a1 (Expr.term nm tm) = false ∧
            occursE a2 (Expr.term nm tm) = false := by
          simpa [occursE, Bool.or_eq_false_iff] using ho
        simp [replaceE, eqE, replace_eq_self a1 (Expr.term nm tm) w hc2.1 rfl ho2.1,
          replace_eq_self a2 (Expr.term nm tm) w hc2.2 rfl ho2.2]
  | .or a1 a2, k, w, hc, hk, ho => by
      cases k <;> simp [isTerm] at hk
      next nm tm =>
        have hc2 : binderClean a1 = true ∧ binderClean a2 = true := by
          simpa [binderClean, Bool.and_eq_true] using hc
        have ho2 : occursE a1 (Expr.term nm tm) = false ∧
            occursE a2 (Expr.term nm tm) = false := by
          simpa [occursE, Bool.or_eq_false_iff] using ho
        simp [replaceE, eqE, replace_eq_self a1 (Expr.term nm tm) w hc2.1 rfl ho2.1,
          replace_eq_self a2 (Expr.term nm tm) w hc2.2 rfl ho2.2]
  | .implies a1 a2, k, w, hc, hk, ho => by
      cases k <;> simp [isTerm] at hk
      next nm tm =>
        have hc2 : binderClean a1 = true ∧ binderClean a2 = true := by
          simpa [binderClean, Bool.and_eq_true] using hc
        have ho2 : occursE a1 (Expr.term nm tm) = false ∧
            occursE a2 (Expr.term nm tm) = false := by
          simpa [occursE, Bool.or_eq_false_iff] using ho
        simp [replaceE, eqE, replace_eq_self a1 (Expr.term nm tm) w hc2.1 rfl ho2.1,
          replace_eq_self a2 (Expr.term nm tm) w hc2.2 rfl ho2.2]
  | .forAll v a, k, w, hc, hk, ho => by
      cases k <;> simp [isTerm] at hk
      next nm tm =>
        have hc2 : hasTermNode v = false ∧ binderClean a = true := by
          simpa [binderClean, Bool.and_eq_true] using hc
        simp [replaceE, eqE, noTerm_replace_id v (Expr.term nm tm) w hc2.1 rfl,
          replace_eq_self a (Expr.term nm tm) w hc2.2 rfl ho]
  | .thereExists v a, k, w, hc, hk, ho => by
      cases k <;> simp [isTerm] at hk
      next nm tm =>
        have hc2 : hasTermNode v = false ∧ binderClean a = true := by
          simpa [binderClean, Bool.and_eq_true] using hc
        simp [replaceE, eqE, noTerm_replace_id v (Expr.term nm tm) w hc2.1 rfl,
          replace_eq_self a (Expr.term nm tm) w hc2.2 rfl ho]

theorem replaceL_eq_self : ∀ (es : ExprList) (k w : Expr), binderCleanL es = true →
    isTerm k = true → occursL es k = false → eqL (replaceL es k w) es = true
  | .nil, k, w, hc, hk, ho => rfl
  | .cons e es, k, w, hc, hk, ho => by
      have hc2 : binderClean e = true ∧ binderCleanL es = true := by
        simpa [binderCleanL, Bool.and_eq_true] using hc
      have ho2 : occursE e k = false ∧ occursL es k = false := by
        simpa [occursL, Bool.or_eq_false_iff] using ho
      simp [replaceL, eqL, replace_eq_self e k w hc2.1 hk ho2.1,
        replaceL_eq_self es k w hc2.2 hk ho2.2]

end

/-! ### Occurrence-freeness through substitution application -/

mutual

/-- Replacing with a `k`-free value in a `k`-free expression keeps it
`k`-free (any replacement target `c`). -/
theorem occurs_replace_free : ∀ (x c v k : Expr), isTerm k = true →
    occursE x k = false → occursE v k = false → occursE (replaceE x c v) k = false
  | .var n t, c, v, k, hk, hx, hv => by
      by_cases h : eqE (Expr.var n t) c = true <;> simp [replaceE, h, occursE, hv]
  | .term n t, c, v, k, hk, hx, hv => by
      by_cases h : eqE (Expr.term n t) c = true
      · simp [replaceE, h, hv]
      · simp only [replaceE, if_neg h]
        exact hx
  | .functor n as t, c, v, k, hk, hx, hv => by
      by_cases h : eqE (Expr.functor n as t) c = true
      · simp [replaceE, h, hv]
      · simp only [replaceE, if_neg h]
        exact occursL_replace_free as c v k hk hx hv
  | .pred n as, c, v, k, hk, hx, hv => by
      by_cases h : eqE (Expr.pred n as) c = true
      · simp [replaceE, h, hv]
      · simp only [replaceE, if_neg h]
        exact occursL_replace_free as c v k hk hx hv
  | .not a, c, v, k, hk, hx, hv => by
      by_cases h : eqE (Expr.not a) c = true
      · simp [replaceE, h, hv]
      · simp only [replaceE, if_neg h]
        exact occurs_replace_free a c v k hk hx hv
  | .and a1 a2, c, v, k, hk, hx, hv => by
      by_cases h : eqE (Expr.and a1 a2) c = true
      · simp [replaceE, h, hv]
      · have hx2 : occursE a1 k = false ∧ occursE a2 k = false := by
          simpa [occursE, Bool.or_eq_false_iff] using hx
        simp only [replaceE, if_neg h]
        show (occursE (replaceE a1 c v) k || occursE (replaceE a2 c v) k) = false
        simp [occurs_replace_free a1 c v k hk hx2.1 hv,
          occurs_replace_free a2 c v k hk hx2.2 hv]
  | .or a1 a2, c, v, k, hk, hx, hv => by
      by_cases h : eqE (Expr.or a1 a2) c = true
      · simp [replaceE, h, hv]
      · have hx2 : occursE a1 k = false ∧ occursE a2 k = false := by
          simpa [occursE, Bool.or_eq_false_iff] using hx
        simp only [replaceE, if_neg h]
        show (occursE (replaceE a1 c v) k || occursE (replaceE a2 c v) k) = false
        simp [occurs_replace_free a1 c v k hk hx2.1 hv,
          occurs_replace_free a2 c v k hk hx2.2 hv]
  | .implies a1 a2, c, v, k, hk, hx, hv => by
      by_cases h : eqE (Expr.implies a1 a2) c = true
      · simp [replaceE, h, hv]
      · have hx2 : occursE a1 k = false ∧ occursE a2 k = false := by
          simpa [occursE, Bool.or_eq_false_iff] using hx
        simp only [replaceE, if_neg h]
        show (occursE (replaceE a1 c v) k || occursE (replaceE a2 c v) k) = false
        simp [occurs_replace_free a1 c v k hk hx2.1 hv,
          occurs_replace_free a2 c v k hk hx2.2 hv]
  | .forAll w a, c, v, k, hk, hx, hv => by
      by_cases h : eqE (Expr.forAll w a) c = true
      · simp [replaceE, h, hv]
      · simp only [replaceE, if_neg h]
        show occursE (replaceE a c v) k = false
        exact occurs_replace_free a c v k hk hx hv
  | .thereExists w a, c, v, k, hk, hx, hv => by
      by_cases h : eqE (Expr.thereExists w a) c = true
      · simp [replaceE, h, hv]
      · simp only [replaceE, if_neg h]
        show occursE (replaceE a c v) k = false
        exact occurs_replace_free a c v k hk hx hv

theorem occursL_replace_free : ∀ (es : ExprList) (c v k : Expr), isTerm k = true →
    occursL es k = false → occursE v k = false → occursL (replaceL es c v) k = false
  | .nil, c, v, k, hk, hx, hv => rfl
  | .cons e es, c, v, k, hk, hx, hv => by
      have hx2 : occursE e k = false ∧ occursL es k = false := by
        simpa [occursL, Bool.or_eq_false_iff] using hx
      show (occursE (replaceE e c v) k || occursL (replaceL es c v) k) = false
      simp [occurs_replace_free e c v k hk hx2.1 hv,
        occursL_replace_free es c v k hk hx2.2 hv]

end

mutual

/-- Replacing `k` itself by a `k`-free value erases every occurrence of `k`. -/
theorem occurs_replace_self : ∀ (x k v : Expr), isTerm k = true →
    occursE v k = false → occursE (replaceE x k v) k = false
  | .var n t, k, v, hk, hv => by
      by_cases h : eqE (Expr.var n t) k = true <;> simp [replaceE, h, occursE, hv]
  | .term n t, k, v, hk, hv => by
      by_cases h : eqE (Expr.term n t) k = true
      · simp [replaceE, h, hv]
      · simp only [replaceE, if_neg h]
        show eqE (Expr.term n t) k = false
        simpa using h
  | .functor n as t, k, v, hk, hv => by
      cases k <;> simp [isTerm] at hk
      next nm tm =>
        simp only [replaceE, eqE, if_neg (by simp : ¬(false = true))]
        exact occursL_replace_self as (Expr.term nm tm) v rfl hv
  | .pred n as, k, v, hk, hv => by
      cases k <;> simp [isTerm] at hk
      next nm tm =>
        simp only [replaceE, eqE, if_neg (by simp : ¬(false = true))]
        exact occursL_replace_self as (Expr.term nm tm) v rfl hv
  | .not a, k, v, hk, hv => by
      cases k <;> simp [isTerm] at hk
      next nm tm =>
        simp only [replaceE, eqE, if_neg (by simp : ¬(false = true))]
        exact occurs_replace_self a (Expr.term nm tm) v rfl hv
  | .and a1 a2, k, v, hk, hv => by
      cases k <;> simp [isTerm] at hk
      next nm tm =>
        simp only [replaceE, eqE, if_neg (by simp : ¬(false = true))]
        show (occursE (replaceE a1 (Expr.term nm tm) v) (Expr.term nm tm) ||
          occursE (replaceE a2 (Expr.term nm tm) v) (Expr.term nm tm)) = false
        simp [occurs_replace_self a1 (Expr.term nm tm) v rfl hv,
          occurs_replace_self a2 (Expr.term nm tm) v rfl hv]
  | .or a1 a2, k, v, hk, hv => by
      cases k <;> simp [isTerm] at hk
      next nm tm =>
        simp only [replaceE, eqE, if_neg (by simp : ¬(false = true))]
        show (occursE (replaceE a1 (Expr.term nm tm) v) (Expr.term nm tm) ||
          occursE (replaceE a2 (Expr.term nm tm) v) (Expr.term nm tm)) = false
        simp [occurs_replace_self a1 (Expr.term nm tm) v rfl hv,
          occurs_replace_self a2 (Expr.term nm tm) v rfl hv]
  | .implies a1 a2, k, v, hk, hv => by
      cases k <;> simp [isTerm] at hk
      next nm tm =>
        simp only [replaceE, eqE, if_neg (by simp : ¬(false = true))]
        show (occursE (replaceE a1 (Expr.term nm tm) v) (Expr.term nm tm) ||
          occursE (replaceE a2 (Expr.term nm tm) v) (Expr.term nm tm)) = false
        simp [occurs_replace_self a1 (Expr.term nm tm) v rfl hv,
          occurs_replace_self a2 (Expr.term nm tm) v rfl hv]
  | .forAll w a, k, v, hk, hv => by
      cases k <;> simp [isTerm] at hk
      next nm tm =>
        simp only [replaceE, eqE, if_neg (by simp : ¬(false = true))]
        show occursE (replaceE a (Expr.term nm tm) v) (Expr.term nm tm) = false
        exact occurs_replace_self a (Expr.term nm tm) v rfl hv
  | .thereExists w a, k, v, hk, hv => by
      cases k <;> simp [isTerm] at hk
      next nm tm =>
        simp only [replaceE, eqE, if_neg (by simp : ¬(false = true))]
        show occursE (replaceE a (Expr.term nm tm) v) (Expr.term nm tm) = false
        exact occurs_replace_self a (Expr.term nm tm) v rfl hv

theorem occursL_replace_self : ∀ (es : ExprList) (k v : Expr), isTerm k = true →
    occursE v k = false → occursL (replaceL es k v) k = false
  | .nil, k, v, hk, hv => rfl
  | .cons e es, k, v, hk, hv => by
      show (occursE (replaceE e k v) k || occursL (replaceL es k v) k) = false
      simp [occurs_replace_self e k v hk hv, occursL_replace_self es k v hk hv]

end

/-! ### `applyItems` and substitution-merging lemmas -/

theorem applyItems_append (S T : Subst) (x : Expr) :
    applyItems (S ++ T) x = applyItems T (applyItems S x) := by
  simp [applyItems, List.foldl_append]

theorem applyItems_free : ∀ (S : Subst) (x k : Expr), isTerm k = true →
    (∀ p ∈ S, occursE p.2 k = false) → occursE x k = false →
    occursE (applyItems S x) k = false
  | [], x, k, hk, hS, hx => hx
  | (k0, v0) :: rest, x, k, hk, hS, hx =>
      applyItems_free rest (replaceE x k0 v0) k hk
        (fun p hp => hS p (List.mem_cons_of_mem _ hp))
        (occurs_replace_free x k0 v0 k hk hx (hS (k0, v0) (List.mem_cons_self _ _)))

theorem applyItems_kills : ∀ (S : Subst) (x : Expr), GoodSub S → ∀ p ∈ S,
    occursE (applyItems S x) p.1 = false
  | [], x, hG, p, hp => absurd hp (by simp)
  | (k0, v0) :: rest, x, hG, p, hp => by
      obtain ⟨hk0, hv0, hfr, hGr⟩ := hG
      rcases List.mem_cons.mp hp with heq | hp2
      · rw [heq]
        show occursE (applyItems rest (replaceE x k0 v0)) k0 = false
        exact applyItems_free rest _ k0 hk0 (fun q hq => (hfr q hq).2)
          (occurs_replace_self x k0 v0 hk0 hv0)
      · exact applyItems_kills rest (replaceE x k0 v0) hGr p hp2

theorem eqE_congr_applyItems : ∀ (S : Subst) (x y : Expr), eqE x y = true →
    eqE (applyItems S x) (applyItems S y) = true
  | [], x, y, h => h
  | (k, v) :: rest, x, y, h =>
      eqE_congr_applyItems rest (replaceE x k v) (replaceE y k v)
        (eqE_congr_replace x y k v h)

theorem binderClean_applyItems : ∀ (S : Subst) (x : Expr),
    (∀ p ∈ S, isTerm p.1 = true ∧ binderClean p.2 = true) → binderClean x = true →
    binderClean (applyItems S x) = true
  | [], x, hS, hx => hx
  | (k, v) :: rest, x, hS, hx =>
      binderClean_applyItems rest (replaceE x k v)
        (fun p hp => hS p (List.mem_cons_of_mem _ hp))
        (binderClean_replace x k v hx (hS (k, v) (List.mem_cons_self _ _)).2
          (hS (k, v) (List.mem_cons_self _ _)).1)

theorem dictUpdateAll_eq_append : ∀ (T S : Subst),
    (∀ p ∈ T, substMemKey p.1 S = false) → GoodSub T →
    dictUpdateAll S T = S ++ T
  | [], S, hf, hG => by simp [dictUpdateAll]
  | (k, v) :: rest, S, hf, hG => by
      obtain ⟨hk, hv, hfr, hGr⟩ := hG
      have hmem : substMemKey k S = false := hf (k, v) (List.mem_cons_self _ _)
      have hf2 : ∀ p ∈ rest, substMemKey p.1 (S ++ [(k, v)]) = false := by
        intro p hp
        show (S ++ [(k, v)]).any (fun q => eqE q.1 p.1) = false
        rw [List.any_append]
        simp only [List.any_cons, List.any_nil]
        have h1 : S.any (fun q => eqE q.1 p.1) = false := hf p (List.mem_cons_of_mem _ hp)
        have h3 : eqE k p.1 = false := by
          rw [eqE_symm k p.1]
          exact (hfr p hp).1
        simp [h1, h3]
      rw [show dictUpdateAll S ((k, v) :: rest) = dictUpdateAll (dictUpdate S k v) rest
        from rfl]
      rw [show dictUpdate S k v = S ++ [(k, v)] from by
        rw [dictUpdate, if_neg (by simp [hmem])]]
      rw [dictUpdateAll_eq_append rest (S ++ [(k, v)]) hf2 hGr, List.append_assoc]
      rfl

theorem GoodSub_append : ∀ (S T : Subst), GoodSub S → GoodSub T →
    (∀ q ∈ S, ∀ p ∈ T, eqE p.1 q.1 = false ∧ occursE p.2 q.1 = false) →
    GoodSub (S ++ T)
  | [], T, _, hT, _ => by simpa using hT
  | (k, v) :: rest, T, hS, hT, hcross => by
      obtain ⟨hk, hv, hfr, hGr⟩ := hS
      refine ⟨hk, hv, ?_, ?_⟩
      · intro p hp
        rcases List.mem_append.mp hp with h1 | h2
        · exact hfr p h1
        · exact hcross (k, v) (List.mem_cons_self _ _) p h2
      · exact GoodSub_append rest T hGr hT
          (fun q hq => hcross q (List.mem_cons_of_mem _ hq))

theorem applyItemsL_nil : ∀ (S : Subst), applyItemsL S .nil = .nil
  | [] => rfl
  | (k, v) :: rest => applyItemsL_nil rest

theorem applyItemsL_cons : ∀ (S : Subst) (a : Expr) (as : ExprList),
    applyItemsL S (.cons a as) = .cons (applyItems S a) (applyItemsL S as)
  | [], a, as => rfl
  | (k, v) :: rest, a, as => applyItemsL_cons rest (replaceE a k v) (replaceL as k v)

theorem applyItems_functor : ∀ (S : Subst) (n : String) (as : ExprList) (t : Nat),
    (∀ p ∈ S, isTerm p.1 = true) →
    ∃ u, applyItems S (.functor n as t) = .functor n (applyItemsL S as) u
  | [], n, as, t, _ => ⟨t, rfl⟩
  | (k, v) :: rest, n, as, t, hS => by
      have hk := hS (k, v) (List.mem_cons_self _ _)
      cases k <;> simp [isTerm] at hk
      next nm tm =>
        have hstep : replaceE (.functor n as t) (.term nm tm) v =
            .functor n (replaceL as (.term nm tm) v) 0 := by
          simp [replaceE, eqE]
        rw [show applyItems ((Expr.term nm tm, v) :: rest) (.functor n as t) =
          applyItems rest (replaceE (.functor n as t) (.term nm tm) v) from rfl, hstep]
        exact applyItems_functor rest n (replaceL as (.term nm tm) v) 0
          (fun p hp => hS p (List.mem_cons_of_mem _ hp))

theorem applyItems_pred : ∀ (S : Subst) (n : String) (as : ExprList),
    (∀ p ∈ S, isTerm p.1 = true) →
    applyItems S (.pred n as) = .pred n (applyItemsL S as)
  | [], n, as, _ => rfl
  | (k, v) :: rest, n, as, hS => by
      have hk := hS (k, v) (List.mem_cons_self _ _)
      cases k <;> simp [isTerm] at hk
      next nm tm =>
        have hstep : replaceE (.pred n as) (.term nm tm) v =
            .pred n (replaceL as (.term nm tm) v) := by
          simp [replaceE, eqE]
        rw [show applyItems ((Expr.term nm tm, v) :: rest) (.pred n as) =
          applyItems rest (replaceE (.pred n as) (.term nm tm) v) from rfl, hstep]
        exact applyItems_pred rest n (replaceL as (.term nm tm) v)
          (fun p hp => hS p (List.mem_cons_of_mem _ hp))

/-! ### The main soundness induction for `unify` -/

theorem unifyChildren_sound (u : Expr → Expr → Option (Except String (Option Subst)))
    (hu : ∀ a b σ, binderClean a = true → binderClean b = true →
      u a b = some (.ok (some σ)) → UnifySound a b σ) :
    ∀ (as bs : ExprList) (S σ : Subst),
      binderCleanL as = true → binderCleanL bs = true →
      GoodSub S → (∀ p ∈ S, isTerm p.1 = true ∧ binderClean p.2 = true) →
      unifyChildren u S as bs = some (.ok (some σ)) →
      (∃ T, σ = S ++ T) ∧ GoodSub σ ∧
      (∀ p ∈ σ, isTerm p.1 = true ∧ binderClean p.2 = true) ∧
      (∀ k, isTerm k = true → FreeOfKey S k → occursL as k = false →
        occursL bs k = false → FreeOfKey σ k) ∧
      eqL (applyItemsL σ as) (applyItemsL σ bs) = true
  | .nil, .nil, S, σ, ha, hb, hGS, hSkv, h => by
      have hσ : S = σ := by
        rw [show unifyChildren u S .nil .nil = some (.ok (some S)) from rfl] at h
        simpa using h
      subst hσ
      refine ⟨⟨[], by simp⟩, hGS, hSkv, ?_, ?_⟩
      · intro k hk hfree _ _
        exact hfree
      · rw [applyItemsL_nil]
        rfl
  | .nil, .cons b bs, S, σ, ha, hb, hGS, hSkv, h => by
      rw [show unifyChildren u S .nil (.cons b bs) = some (.ok none) from rfl] at h
      simp at h
  | .cons a as, .nil, S, σ, ha, hb, hGS, hSkv, h => by
      rw [show unifyChildren u S (.cons a as) .nil = some (.ok none) from rfl] at h
      simp at h
  | .cons a as, .cons b bs, S, σ, ha, hb, hGS, hSkv, h => by
      have ha2 : binderClean a = true ∧ binderCleanL as = true := by
        simpa [binderCleanL, Bool.and_eq_true] using ha
      have hb2 : binderClean b = true ∧ binderCleanL bs = true := by
        simpa [binderCleanL, Bool.and_eq_true] using hb
      have hca : binderClean (applyItems S a) = true :=
        binderClean_applyItems S a hSkv ha2.1
      have hcb : binderClean (applyItems S b) = true :=
        binderClean_applyItems S b hSkv hb2.1
      cases hres : u (applyItems S a) (applyItems S b) with
      | none =>
          rw [show unifyChildren u S (.cons a as) (.cons b bs) = none from by
            simp [unifyChildren, hres]] at h
          simp at h
      | some ex =>
          cases ex with
          | error e =>
              rw [show unifyChildren u S (.cons a as) (.cons b bs) =
                some (.error e) from by simp [unifyChildren, hres]] at h
              simp at h
          | ok osub =>
              cases osub with
              | none =>
                  rw [show unifyChildren u S (.cons a as) (.cons b bs) =
                    some (.ok none) from by simp [unifyChildren, hres]] at h
                  simp at h
              | some sub =>
                  obtain ⟨hGsub, hsubkv, hFresh, hEq⟩ := hu _ _ sub hca hcb hres
                  have hfreeS : ∀ q ∈ S, ∀ p ∈ sub,
                      eqE p.1 q.1 = false ∧ occursE p.2 q.1 = false := by
                    intro q hq
                    exact hFresh q.1 (hSkv q hq).1
                      (applyItems_kills S a hGS q hq)
                      (applyItems_kills S b hGS q hq)
                  have hmerge : dictUpdateAll S sub = S ++ sub := by
                    apply dictUpdateAll_eq_append sub S ?_ hGsub
                    intro p hp
                    show S.any (fun q => eqE q.1 p.1) = false
                    rw [List.any_eq_false]
                    intro q hq
                    have h4 := (hfreeS q hq p hp).1
                    rw [eqE_symm q.1 p.1, h4]
                    simp
                  rw [show unifyChildren u S (.cons a as) (.cons b bs) =
                    unifyChildren u (dictUpdateAll S sub) as bs from by
                      simp [unifyChildren, hres], hmerge] at h
                  have hGS2 : GoodSub (S ++ sub) := GoodSub_append S sub hGS hGsub hfreeS
                  have hSkv2 : ∀ p ∈ S ++ sub,
                      isTerm p.1 = true ∧ binderClean p.2 = true := by
                    intro p hp
                    rcases List.mem_append.mp hp with h1 | h2
                    · exact hSkv p h1
                    · exact hsubkv p h2
                  obtain ⟨⟨T, hT⟩, hGσ, hσkv, hFreshσ, hEqL⟩ :=
                    unifyChildren_sound u hu as bs (S ++ sub) σ ha2.2 hb2.2 hGS2 hSkv2 h
                  refine ⟨⟨sub ++ T, by rw [hT, List.append_assoc]⟩, hGσ, hσkv, ?_, ?_⟩
                  · intro k hk hfreeSk hoas hobs
                    have hoa : occursE a k = false ∧ occursL as k = false := by
                      simpa [occursL, Bool.or_eq_false_iff] using hoas
                    have hob : occursE b k = false ∧ occursL bs k = false := by
                      simpa [occursL, Bool.or_eq_false_iff] using hobs
                    have hA : occursE (applyItems S a) k = false :=
                      applyItems_free S a k hk (fun p hp => (hfreeSk p hp).2) hoa.1
                    have hB : occursE (applyItems S b) k = false :=
                      applyItems_free S b k hk (fun p hp => (hfreeSk p hp).2) hob.1
                    have hfsub : FreeOfKey sub k := hFresh k hk hA hB
                    have hfS2 : FreeOfKey (S ++ sub) k := by
                      intro p hp
                      rcases List.mem_append.mp hp with h1 | h2
                      · exact hfreeSk p h1
                      · exact hfsub p h2
                    exact hFreshσ k hk hfS2 hoa.2 hob.2
                  · rw [applyItemsL_cons, applyItemsL_cons]
                    show (eqE (applyItems σ a) (applyItems σ b) &&
                      eqL (applyItemsL σ as) (applyItemsL σ bs)) = true
                    have h1 : eqE (applyItems (S ++ sub) a)
                        (applyItems (S ++ sub) b) = true := by
                      rw [applyItems_append, applyItems_append]
                      exact hEq
                    have h2 : eqE (applyItems σ a) (applyItems σ b) = true := by
                      rw [hT, applyItems_append (S ++ sub) T a,
                        applyItems_append (S ++ sub) T b]
                      exact eqE_congr_applyItems T _ _ h1
                    rw [h2, hEqL]
                    rfl

theorem unify_sound : ∀ (fuel : Nat) (a b : Expr) (σ : Subst),
    binderClean a = true → binderClean b = true →
    unify fuel a b = some (.ok (some σ)) → UnifySound a b σ
  | 0, a, b, σ, _, _, h => by simp [unify] at h
  | fuel+1, a, b, σ, ha, hb, h => by
      cases a with
      | term n t =>
          by_cases hocc : occursE b (Expr.term n t) = true
          · rw [show unify (fuel+1) (Expr.term n t) b = some (.ok none) from by
              simp [unify, hocc]] at h
            simp at h
          · have hocc2 : occursE b (Expr.term n t) = false := by simpa using hocc
            cases hgt : getTime b with
            | none =>
                rw [show unify (fuel+1) (Expr.term n t) b =
                  some (.error "AttributeError") from by simp [unify, hocc2, hgt]] at h
                simp at h
            | some tb =>
                by_cases hlt : t < tb
                · rw [show unify (fuel+1) (Expr.term n t) b = some (.ok none) from by
                    simp [unify, hocc2, hgt, hlt]] at h
                  simp at h
                · have hσ : σ = [(Expr.term n t, b)] := by
                    rw [show unify (fuel+1) (Expr.term n t) b =
                      some (.ok (some [(Expr.term n t, b)])) from by
                        simp [unify, hocc2, hgt, hlt]] at h
                    simpa using h.symm
                  subst hσ
                  refine ⟨?_, ?_, ?_, ?_⟩
                  · exact ⟨rfl, hocc2, by intro p hp; simp at hp, trivial⟩
                  · intro p hp
                    simp at hp
                    rw [hp]
                    exact ⟨rfl, hb⟩
                  · intro k hk hoa hob p hp
                    simp at hp
                    rw [hp]
                    exact ⟨hoa, hob⟩
                  · show eqE (applyItems [(Expr.term n t, b)] (Expr.term n t))
                      (applyItems [(Expr.term n t, b)] b) = true
                    rw [show applyItems [(Expr.term n t, b)] (Expr.term n t) = b from by
                      show applyItems [] (replaceE (Expr.term n t) (Expr.term n t) b) = b
                      simp [applyItems, replaceE, eqE_refl]]
                    show eqE b (replaceE b (Expr.term n t) b) = true
                    rw [eqE_symm]
                    exact replace_eq_self b (Expr.term n t) b hb rfl hocc2
      | var n t =>
          cases b with
          | term m u =>
              by_cases hlt : u < t
              · rw [show unify (fuel+1) (Expr.var n t) (Expr.term m u) =
                  some (.ok none) from by simp [unify, occursE, getTime, hlt]] at h
                simp at h
              · have hσ : σ = [(Expr.term m u, Expr.var n t)] := by
                  rw [show unify (fuel+1) (Expr.var n t) (Expr.term m u) =
                    some (.ok (some [(Expr.term m u, Expr.var n t)])) from by
                      simp [unify, occursE, getTime, hlt]] at h
                  simpa using h.symm
                subst hσ
                refine ⟨?_, ?_, ?_, ?_⟩
                · exact ⟨rfl, rfl, by intro p hp; simp at hp, trivial⟩
                · intro p hp
                  simp at hp
                  rw [hp]
                  exact ⟨rfl, rfl⟩
                · intro k hk hoa hob p hp
                  simp at hp
                  rw [hp]
                  exact ⟨hob, hoa⟩
                · simp [applyItems, replaceE, eqE, eqE_refl]
          | var m u =>
              by_cases he : eqE (Expr.var n t) (Expr.var m u) = true
              · have hσ : σ = [] := by
                  rw [show unify (fuel+1) (Expr.var n t) (Expr.var m u) =
                    some (.ok (some [])) from by simp [unify, he]] at h
                  simpa using h.symm
                subst hσ
                refine ⟨trivial, by intro p hp; simp at hp, ?_, he⟩
                intro k hk hoa hob p hp
                simp at hp
              · rw [show unify (fuel+1) (Expr.var n t) (Expr.var m u) =
                  some (.ok none) from by
                    simp only [unify]
                    rw [if_neg he]] at h
                simp at h
          | functor m bs u =>
              rw [show unify (fuel+1) (Expr.var n t) (Expr.functor m bs u) =
                some (.ok none) from by simp [unify]] at h
              simp at h
          | pred m bs =>
              rw [show unify (fuel+1) (Expr.var n t) (Expr.pred m bs) =
                some (.ok none) from by simp [unify]] at h
              simp at h
          | not g =>
              rw [show unify (fuel+1) (Expr.var n t) (Expr.not g) =
                some (.ok none) from by simp [unify]] at h
              simp at h
          | and g1 g2 =>
              rw [show unify (fuel+1) (Expr.var n t) (Expr.and g1 g2) =
                some (.ok none) from by simp [unify]] at h
              simp at h
          | or g1 g2 =>
              rw [show unify (fuel+1) (Expr.var n t) (Expr.or g1 g2) =
                some (.ok none) from by simp [unify]] at h
              simp at h
          | implies g1 g2 =>
              rw [show unify (fuel+1) (Expr.var n t) (Expr.implies g1 g2) =
                some (.ok none) from by simp [unify]] at h
              simp at h
          | forAll w2 g =>
              rw [show unify (fuel+1) (Expr.var n t) (Expr.forAll w2 g) =
                some (.ok none) from by simp [unify]] at h
              simp at h
          | thereExists w2 g =>
              rw [show unify (fuel+1) (Expr.var n t) (Expr.thereExists w2 g) =
                some (.ok none) from by simp [unify]] at h
              simp at h
      | functor n as t =>
          cases b with
          | term m u =>
              by_cases hocc : occursE (Expr.functor n as t) (Expr.term m u) = true
              · rw [show unify (fuel+1) (Expr.functor n as t) (Expr.term m u) =
                  some (.ok none) from by simp [unify, hocc]] at h
                simp at h
              · have hocc2 : occursE (Expr.functor n as t) (Expr.term m u) = false := by
                  simpa using hocc
                by_cases hlt : u < t
                · rw [show unify (fuel+1) (Expr.functor n as t) (Expr.term m u) =
                    some (.ok none) from by simp [unify, hocc2, getTime, hlt]] at h
                  simp at h
                · have hσ : σ = [(Expr.term m u, Expr.functor n as t)] := by
                    rw [show unify (fuel+1) (Expr.functor n as t) (Expr.term m u) =
                      some (.ok (some [(Expr.term m u, Expr.functor n as t)])) from by
                        simp [unify, hocc2, getTime, hlt]] at h
                    simpa using h.symm
                  subst hσ
                  refine ⟨?_, ?_, ?_, ?_⟩
                  · exact ⟨rfl, hocc2, by intro p hp; simp at hp, trivial⟩
                  · intro p hp
                    simp at hp
                    rw [hp]
                    exact ⟨rfl, ha⟩
                  · intro k hk hoa hob p hp
                    simp at hp
                    rw [hp]
                    exact ⟨hob, hoa⟩
                  · show eqE
                      (applyItems [(Expr.term m u, Expr.functor n as t)]
                        (Expr.functor n as t))
                      (applyItems [(Expr.term m u, Expr.functor n as t)]
                        (Expr.term m u)) = true
                    rw [show applyItems [(Expr.term m u, Expr.functor n as t)]
                      (Expr.term m u) = Expr.functor n as t from by
                        show applyItems []
                          (replaceE (Expr.term m u) (Expr.term m u)
                            (Expr.functor n as t)) = Expr.functor n as t
                        simp [applyItems, replaceE, eqE_refl]]
                    exact replace_eq_self (Expr.functor n as t) (Expr.term m u)
                      (Expr.functor n as t) ha rfl hocc2
          | functor m bs u =>
              by_cases hn : (n != m) = true
              · rw [show unify (fuel+1) (Expr.functor n as t) (Expr.functor m bs u) =
                  some (.ok none) from by simp [unify, hn]] at h
                simp at h
              · have hnm : n = m := by simpa using hn
                by_cases hl : (lenL as != lenL bs) = true
                · rw [show unify (fuel+1) (Expr.functor n as t) (Expr.functor m bs u) =
                    some (.ok none) from by
                      simp only [unify]
                      rw [if_neg hn, if_pos hl]] at h
                  simp at h
                · rw [show unify (fuel+1) (Expr.functor n as t) (Expr.functor m bs u) =
                    unifyChildren (unify fuel) [] as bs from by
                      simp only [unify]
                      rw [if_neg hn, if_neg hl]] at h
                  obtain ⟨_, hGσ, hσkv, hFr, hEqL⟩ :=
                    unifyChildren_sound (unify fuel)
                      (fun a b σ2 hca hcb hh => unify_sound fuel a b σ2 hca hcb hh)
                      as bs [] σ ha hb trivial (by intro p hp; simp at hp) h
                  refine ⟨hGσ, hσkv, ?_, ?_⟩
                  · intro k hk hoa hob
                    exact hFr k hk (by intro p hp; simp at hp) hoa hob
                  · obtain ⟨u1, hu1⟩ :=
                      applyItems_functor σ n as t (fun p hp => (hσkv p hp).1)
                    obtain ⟨u2, hu2⟩ :=
                      applyItems_functor σ m bs u (fun p hp => (hσkv p hp).1)
                    rw [hu1, hu2]
                    show (n == m && eqL (applyItemsL σ as) (applyItemsL σ bs)) = true
                    rw [hnm, hEqL]
                    simp
          | var m2 u2 =>
              rw [show unify (fuel+1) (Expr.functor n as t) (Expr.var m2 u2) =
                some (.ok none) from by simp [unify]] at h
              simp at h
          | pred m2 bs2 =>
              rw [show unify (fuel+1) (Expr.functor n as t) (Expr.pred m2 bs2) =
                some (.ok none) from by simp [unify]] at h
              simp at h
          | not g =>
              rw [show unify (fuel+1) (Expr.functor n as t) (Expr.not g) =
                some (.ok none) from by simp [unify]] at h
              simp at h
          | and g1 g2 =>
              rw [show unify (fuel+1) (Expr.functor n as t) (Expr.and g1 g2) =
                some (.ok none) from by simp [unify]] at h
              simp at h
          | or g1 g2 =>
              rw [show unify (fuel+1) (Expr.functor n as t) (Expr.or g1 g2) =
                some (.ok none) from by simp [unify]] at h
              simp at h
          | implies g1 g2 =>
              rw [show unify (fuel+1) (Expr.functor n as t) (Expr.implies g1 g2) =
                some (.ok none) from by simp [unify]] at h
              simp at h
          | forAll w2 g =>
              rw [show unify (fuel+1) (Expr.functor n as t) (Expr.forAll w2 g) =
                some (.ok none) from by simp [unify]] at h
              simp at h
          | thereExists w2 g =>
              rw [show unify (fuel+1) (Expr.functor n as t) (Expr.thereExists w2 g) =
                some (.ok none) from by simp [unify]] at h
              simp at h
      | pred n as =>
          cases b with
          | term m u =>
              by_cases hocc : occursE (Expr.pred n as) (Expr.term m u) = true
              · rw [show unify (fuel+1) (Expr.pred n as) (Expr.term m u) =
                  some (.ok none) from by simp [unify, hocc]] at h
                simp at h
              · have hocc2 : occursE (Expr.pred n as) (Expr.term m u) = false := by
                  simpa using hocc
                rw [show unify (fuel+1) (Expr.pred n as) (Expr.term m u) =
                  some (.error "AttributeError") from by
                    simp [unify, hocc2, getTime]] at h
                simp at h
          | pred m bs =>
              by_cases hn : (n != m) = true
              · rw [show unify (fuel+1) (Expr.pred n as) (Expr.pred m bs) =
                  some (.ok none) from by simp [unify, hn]] at h
                simp at h
              · have hnm : n = m := by simpa using hn
                by_cases hl : (lenL as != lenL bs) = true
                · rw [show unify (fuel+1) (Expr.pred n as) (Expr.pred m bs) =
                    some (.ok none) from by
                      simp only [unify]
                      rw [if_neg hn, if_pos hl]] at h
                  simp at h
                · rw [show unify (fuel+1) (Expr.pred n as) (Expr.pred m bs) =
                    unifyChildren (unify fuel) [] as bs from by
                      simp only [unify]
                      rw [if_neg hn, if_neg hl]] at h
                  obtain ⟨_, hGσ, hσkv, hFr, hEqL⟩ :=
                    unifyChildren_sound (unify fuel)
                      (fun a b σ2 hca hcb hh => unify_sound fuel a b σ2 hca hcb hh)
                      as bs [] σ ha hb trivial (by intro p hp; simp at hp) h
                  refine ⟨hGσ, hσkv, ?_, ?_⟩
                  · intro k hk hoa hob
                    exact hFr k hk (by intro p hp; simp at hp) hoa hob
                  · rw [applyItems_pred σ n as (fun p hp => (hσkv p hp).1),
                      applyItems_pred σ m bs (fun p hp => (hσkv p hp).1)]
                    show (n == m && eqL (applyItemsL σ as) (applyItemsL σ bs)) = true
                    rw [hnm, hEqL]
                    simp
          | var m2 u2 =>
              rw [show unify (fuel+1) (Expr.pred n as) (Expr.var m2 u2) =
                some (.ok none) from by simp [unify]] at h
              simp at h
          | functor m2 bs2 u2 =>
              rw [show unify (fuel+1) (Expr.pred n as) (Expr.functor m2 bs2 u2) =
                some (.ok none) from by simp [unify]] at h
              simp at h
          | not g =>
              rw [show unify (fuel+1) (Expr.pred n as) (Expr.not g) =
                some (.ok none) from by simp [unify]] at h
              simp at h
          | and g1 g2 =>
              rw [show unify (fuel+1) (Expr.pred n as) (Expr.and g1 g2) =
                some (.ok none) from by simp [unify]] at h
              simp at h
          | or g1 g2 =>
              rw [show unify (fuel+1) (Expr.pred n as) (Expr.or g1 g2) =
                some (.ok none) from by simp [unify]] at h
              simp at h
          | implies g1 g2 =>
              rw [show unify (fuel+1) (Expr.pred n as) (Expr.implies g1 g2) =
                some (.ok none) from by simp [unify]] at h
              simp at h
          | forAll w2 g =>
              rw [show unify (fuel+1) (Expr.pred n as) (Expr.forAll w2 g) =
                some (.ok none) from by simp [unify]] at h
              simp at h
          | thereExists w2 g =>
              rw [show unify (fuel+1) (Expr.pred n as) (Expr.thereExists w2 g) =
                some (.ok none) from by simp [unify]] at h
              simp at h
      | not f =>
          cases b with
          | term m u =>
              by_cases hocc : occursE (Expr.not f) (Expr.term m u) = true
              · rw [show unify (fuel+1) (Expr.not f) (Expr.term m u) = some (.ok none)
                  from by simp [unify, hocc]] at h
                simp at h
              · have hocc2 : occursE (Expr.not f) (Expr.term m u) = false := by
                  simpa using hocc
                rw [show unify (fuel+1) (Expr.not f) (Expr.term m u) =
                  some (.error "AttributeError") from by
                    simp [unify, hocc2, getTime]] at h
                simp at h
          | var m2 u2 =>
              rw [show unify (fuel+1) (Expr.not f) (Expr.var m2 u2) = some (.ok none)
                from by simp [unify]] at h
              simp at h
          | functor m2 bs2 u2 =>
              rw [show unify (fuel+1) (Expr.not f) (Expr.functor m2 bs2 u2) = some (.ok none)
                from by simp [unify]] at h
              simp at h
          | pred m2 bs2 =>
              rw [show unify (fuel+1) (Expr.not f) (Expr.pred m2 bs2) = some (.ok none)
                from by simp [unify]] at h
              simp at h
          | not g =>
              rw [show unify (fuel+1) (Expr.not f) (Expr.not g) = some (.ok none)
                from by simp [unify]] at h
              simp at h
          | and g1 g2 =>
              rw [show unify (fuel+1) (Expr.not f) (Expr.and g1 g2) = some (.ok none)
                from by simp [unify]] at h
              simp at h
          | or g1 g2 =>
              rw [show unify (fuel+1) (Expr.not f) (Expr.or g1 g2) = some (.ok none)
                from by simp [unify]] at h
              simp at h
          | implies g1 g2 =>
              rw [show unify (fuel+1) (Expr.not f) (Expr.implies g1 g2) = some (.ok none)
                from by simp [unify]] at h
              simp at h
          | forAll w2 g =>
              rw [show unify (fuel+1) (Expr.not f) (Expr.forAll w2 g) = some (.ok none)
                from by simp [unify]] at h
              simp at h
          | thereExists w2 g =>
              rw [show unify (fuel+1) (Expr.not f) (Expr.thereExists w2 g) = some (.ok none)
                from by simp [unify]] at h
              simp at h
      | and f1 f2 =>
          cases b with
          | term m u =>
              by_cases hocc : occursE (Expr.and f1 f2) (Expr.term m u) = true
              · rw [show unify (fuel+1) (Expr.and f1 f2) (Expr.term m u) = some (.ok none)
                  from by simp [unify, hocc]] at h
                simp at h
              · have hocc2 : occursE (Expr.and f1 f2) (Expr.term m u) = false := by
                  simpa using hocc
                rw [show unify (fuel+1) (Expr.and f1 f2) (Expr.term m u) =
                  some (.error "AttributeError") from by
                    simp [unify, hocc2, getTime]] at h
                simp at h
          | var m2 u2 =>
              rw [show unify (fuel+1) (Expr.and f1 f2) (Expr.var m2 u2) = some (.ok none)
                from by simp [unify]] at h
              simp at h
          | functor m2 bs2 u2 =>
              rw [show unify (fuel+1) (Expr.and f1 f2) (Expr.functor m2 bs2 u2) = some (.ok none)
                from by simp [unify]] at h
              simp at h
          | pred m2 bs2 =>
              rw [show unify (fuel+1) (Expr.and f1 f2) (Expr.pred m2 bs2) = some (.ok none)
                from by simp [unify]] at h
              simp at h
          | not g =>
              rw [show unify (fuel+1) (Expr.and f1 f2) (Expr.not g) = some (.ok none)
                from by simp [unify]] at h
              simp at h
          | and g1 g2 =>
              rw [show unify (fuel+1) (Expr.and f1 f2) (Expr.and g1 g2) = some (.ok none)
                from by simp [unify]] at h
              simp at h
          | or g1 g2 =>
              rw [show unify (fuel+1) (Expr.and f1 f2) (Expr.or g1 g2) = some (.ok none)
                from by simp [unify]] at h
              simp at h
          | implies g1 g2 =>
              rw [show unify (fuel+1) (Expr.and f1 f2) (Expr.implies g1 g2) = some (.ok none)
                from by simp [unify]] at h
              simp at h
          | forAll w2 g =>
              rw [show unify (fuel+1) (Expr.and f1 f2) (Expr.forAll w2 g) = some (.ok none)
                from by simp [unify]] at h
              simp at h
          | thereExists w2 g =>
              rw [show unify (fuel+1) (Expr.and f1 f2) (Expr.thereExists w2 g) = some (.ok none)
                from by simp [unify]] at h
              simp at h
      | or f1 f2 =>
          cases b with
          | term m u =>
              by_cases hocc : occursE (Expr.or f1 f2) (Expr.term m u) = true
              · rw [show unify (fuel+1) (Expr.or f1 f2) (Expr.term m u) = some (.ok none)
                  from by simp [unify, hocc]] at h
                simp at h
              · have hocc2 : occursE (Expr.or f1 f2) (Expr.term m u) = false := by
                  simpa using hocc
                rw [show unify (fuel+1) (Expr.or f1 f2) (Expr.term m u) =
                  some (.error "AttributeError") from by
                    simp [unify, hocc2, getTime]] at h
                simp at h
          | var m2 u2 =>
              rw [show unify (fuel+1) (Expr.or f1 f2) (Expr.var m2 u2) = some (.ok none)
                from by simp [unify]] at h
              simp at h
          | functor m2 bs2 u2 =>
              rw [show unify (fuel+1) (Expr.or f1 f2) (Expr.functor m2 bs2 u2) = some (.ok none)
                from by simp [unify]] at h
              simp at h
          | pred m2 bs2 =>
              rw [show unify (fuel+1) (Expr.or f1 f2) (Expr.pred m2 bs2) = some (.ok none)
                from by simp [unify]] at h
              simp at h
          | not g =>
              rw [show unify (fuel+1) (Expr.or f1 f2) (Expr.not g) = some (.ok none)
                from by simp [unify]] at h
              simp at h
          | and g1 g2 =>
              rw [show unify (fuel+1) (Expr.or f1 f2) (Expr.and g1 g2) = some (.ok none)
                from by simp [unify]] at h
              simp at h
          | or g1 g2 =>
              rw [show unify (fuel+1) (Expr.or f1 f2) (Expr.or g1 g2) = some (.ok none)
                from by simp [unify]] at h
              simp at h
          | implies g1 g2 =>
              rw [show unify (fuel+1) (Expr.or f1 f2) (Expr.implies g1 g2) = some (.ok none)
                from by simp [unify]] at h
              simp at h
          | forAll w2 g =>
              rw [show unify (fuel+1) (Expr.or f1 f2) (Expr.forAll w2 g) = some (.ok none)
                from by simp [unify]] at h
              simp at h
          | thereExists w2 g =>
              rw [show unify (fuel+1) (Expr.or f1 f2) (Expr.thereExists w2 g) = some (.ok none)
                from by simp [unify]] at h
              simp at h
      | implies f1 f2 =>
          cases b with
          | term m u =>
              by_cases hocc : occursE (Expr.implies f1 f2) (Expr.term m u) = true
              · rw [show unify (fuel+1) (Expr.implies f1 f2) (Expr.term m u) = some (.ok none)
                  from by simp [unify, hocc]] at h
                simp at h
              · have hocc2 : occursE (Expr.implies f1 f2) (Expr.term m u) = false := by
                  simpa using hocc
                rw [show unify (fuel+1) (Expr.implies f1 f2) (Expr.term m u) =
                  some (.error "AttributeError") from by
                    simp [unify, hocc2, getTime]] at h
                simp at h
          | var m2 u2 =>
              rw [show unify (fuel+1) (Expr.implies f1 f2) (Expr.var m2 u2) = some (.ok none)
                from by simp [unify]] at h
              simp at h
          | functor m2 bs2 u2 =>
              rw [show unify (fuel+1) (Expr.implies f1 f2) (Expr.functor m2 bs2 u2) = some (.ok none)
                from by simp [unify]] at h
              simp at h
          | pred m2 bs2 =>
              rw [show unify (fuel+1) (Expr.implies f1 f2) (Expr.pred m2 bs2) = some (.ok none)
                from by simp [unify]] at h
              simp at h
          | not g =>
              rw [show unify (fuel+1) (Expr.implies f1 f2) (Expr.not g) = some (.ok none)
                from by simp [unify]] at h
              simp at h
          | and g1 g2 =>
              rw [show unify (fuel+1) (Expr.implies f1 f2) (Expr.and g1 g2) = some (.ok none)
                from by simp [unify]] at h
              simp at h
          | or g1 g2 =>
              rw [show unify (fuel+1) (Expr.implies f1 f2) (Expr.or g1 g2) = some (.ok none)
                from by simp [unify]] at h
              simp at h
          | implies g1 g2 =>
              rw [show unify (fuel+1) (Expr.implies f1 f2) (Expr.implies g1 g2) = some (.ok none)
                from by simp [unify]] at h
              simp at h
          | forAll w2 g =>
              rw [show unify (fuel+1) (Expr.implies f1 f2) (Expr.forAll w2 g) = some (.ok none)
                from by simp [unify]] at h
              simp at h
          | thereExists w2 g =>
              rw [show unify (fuel+1) (Expr.implies f1 f2) (Expr.thereExists w2 g) = some (.ok none)
                from by simp [unify]] at h
              simp at h
      | forAll w f =>
          cases b with
          | term m u =>
              by_cases hocc : occursE (Expr.forAll w f) (Expr.term m u) = true
              · rw [show unify (fuel+1) (Expr.forAll w f) (Expr.term m u) = some (.ok none)
                  from by simp [unify, hocc]] at h
                simp at h
              · have hocc2 : occursE (Expr.forAll w f) (Expr.term m u) = false := by
                  simpa using hocc
                rw [show unify (fuel+1) (Expr.forAll w f) (Expr.term m u) =
                  some (.error "AttributeError") from by
                    simp [unify, hocc2, getTime]] at h
                simp at h
          | var m2 u2 =>
              rw [show unify (fuel+1) (Expr.forAll w f) (Expr.var m2 u2) = some (.ok none)
                from by simp [unify]] at h
              simp at h
          | functor m2 bs2 u2 =>
              rw [show unify (fuel+1) (Expr.forAll w f) (Expr.functor m2 bs2 u2) = some (.ok none)
                from by simp [unify]] at h
              simp at h
          | pred m2 bs2 =>
              rw [show unify (fuel+1) (Expr.forAll w f) (Expr.pred m2 bs2) = some (.ok none)
                from by simp [unify]] at h
              simp at h
          | not g =>
              rw [show unify (fuel+1) (Expr.forAll w f) (Expr.not g) = some (.ok none)
                from by simp [unify]] at h
              simp at h
          | and g1 g2 =>
              rw [show unify (fuel+1) (Expr.forAll w f) (Expr.and g1 g2) = some (.ok none)
                from by simp [unify]] at h
              simp at h
          | or g1 g2 =>
              rw [show unify (fuel+1) (Expr.forAll w f) (Expr.or g1 g2) = some (.ok none)
                from by simp [unify]] at h
              simp at h
          | implies g1 g2 =>
              rw [show unify (fuel+1) (Expr.forAll w f) (Expr.implies g1 g2) = some (.ok none)
                from by simp [unify]] at h
              simp at h
          | forAll w2 g =>
              rw [show unify (fuel+1) (Expr.forAll w f) (Expr.forAll w2 g) = some (.ok none)
                from by simp [unify]] at h
              simp at h
          | thereExists w2 g =>
              rw [show unify (fuel+1) (Expr.forAll w f) (Expr.thereExists w2 g) = some (.ok none)
                from by simp [unify]] at h
              simp at h
      | thereExists w f =>
          cases b with
          | term m u =>
              by_cases hocc : occursE (Expr.thereExists w f) (Expr.term m u) = true
              · rw [show unify (fuel+1) (Expr.thereExists w f) (Expr.term m u) = some (.ok none)
                  from by simp [unify, hocc]] at h
                simp at h
              · have hocc2 : occursE (Expr.thereExists w f) (Expr.term m u) = false := by
                  simpa using hocc
                rw [show unify (fuel+1) (Expr.thereExists w f) (Expr.term m u) =
                  some (.error "AttributeError") from by
                    simp [unify, hocc2, getTime]] at h
                simp at h
          | var m2 u2 =>
              rw [show unify (fuel+1) (Expr.thereExists w f) (Expr.var m2 u2) = some (.ok none)
                from by simp [unify]] at h
              simp at h
          | functor m2 bs2 u2 =>
              rw [show unify (fuel+1) (Expr.thereExists w f) (Expr.functor m2 bs2 u2) = some (.ok none)
                from by simp [unify]] at h
              simp at h
          | pred m2 bs2 =>
              rw [show unify (fuel+1) (Expr.thereExists w f) (Expr.pred m2 bs2) = some (.ok none)
                from by simp [unify]] at h
              simp at h
          | not g =>
              rw [show unify (fuel+1) (Expr.thereExists w f) (Expr.not g) = some (.ok none)
                from by simp [unify]] at h
              simp at h
          | and g1 g2 =>
              rw [show unify (fuel+1) (Expr.thereExists w f) (Expr.and g1 g2) = some (.ok none)
                from by simp [unify]] at h
              simp at h
          | or g1 g2 =>
              rw [show unify (fuel+1) (Expr.thereExists w f) (Expr.or g1 g2) = some (.ok none)
                from by simp [unify]] at h
              simp at h
          | implies g1 g2 =>
              rw [show unify (fuel+1) (Expr.thereExists w f) (Expr.implies g1 g2) = some (.ok none)
                from by simp [unify]] at h
              simp at h
          | forAll w2 g =>
              rw [show unify (fuel+1) (Expr.thereExists w f) (Expr.forAll w2 g) = some (.ok none)
                from by simp [unify]] at h
              simp at h
          | thereExists w2 g =>
              rw [show unify (fuel+1) (Expr.thereExists w f) (Expr.thereExists w2 g) = some (.ok none)
                from by simp [unify]] at h
              simp at h

/-- C3: unification soundness fails on the full expression algebra:
`occurs` never looks into a quantifier's bound-variable slot while
`replace` rewrites it.  `unify(τ, f(∀τ. P))` passes the occurs check and
returns a binding, but applying the substitution to both sides gives
`f(∀τ. P)` and `f(∀f(∀τ. P). P)`, which are not `==`-equal. -/
theorem c3_counterexample :
    unify 1 (Expr.term "t" 0)
      (Expr.functor "f" (.cons (.forAll (.term "t" 0) (.pred "P" .nil)) .nil) 0) =
      some (.ok (some [(Expr.term "t" 0,
        Expr.functor "f" (.cons (.forAll (.term "t" 0) (.pred "P" .nil)) .nil) 0)])) ∧
    eqE
      (applyItems
        [(Expr.term "t" 0,
          Expr.functor "f" (.cons (.forAll (.term "t" 0) (.pred "P" .nil)) .nil) 0)]
        (Expr.term "t" 0))
      (applyItems
        [(Expr.term "t" 0,
          Expr.functor "f" (.cons (.forAll (.term "t" 0) (.pred "P" .nil)) .nil) 0)]
        (Expr.functor "f" (.cons (.forAll (.term "t" 0) (.pred "P" .nil)) .nil) 0)) =
      false :=
  ⟨rfl, rfl⟩

/-- C3 (amended): if no quantifier occurring in `a` or `b` carries a
unification `Term` inside its bound-variable slot (true of every formula
the engine builds from parsed input, where binder slots hold `Variable`s),
then a substitution returned by `unify(a, b)` — applied by iterating
`replace` over its bindings in order — makes `a` and `b` structurally
equal. -/
theorem c3_unify_soundness (fuel : Nat) (a b : Expr) (σ : Subst)
    (ha : binderClean a = true) (hb : binderClean b = true)
    (h : unify fuel a b = some (.ok (some σ))) :
    eqE (applyItems σ a) (applyItems σ b) = true :=
  (unify_sound fuel a b σ ha hb h).2.2.2

theorem c3_witness :
    binderClean (Expr.pred "P" (.cons (.term "t1" 0) .nil)) = true ∧
    binderClean (Expr.pred "P" (.cons (.functor "c" .nil 0) .nil)) = true ∧
    unify 2 (Expr.pred "P" (.cons (.term "t1" 0) .nil))
      (Expr.pred "P" (.cons (.functor "c" .nil 0) .nil)) =
      some (.ok (some [(Expr.term "t1" 0, Expr.functor "c" .nil 0)])) ∧
    eqE
      (applyItems [(Expr.term "t1" 0, Expr.functor "c" .nil 0)]
        (Expr.pred "P" (.cons (.term "t1" 0) .nil)))
      (applyItems [(Expr.term "t1" 0, Expr.functor "c" .nil 0)]
        (Expr.pred "P" (.cons (.functor "c" .nil 0) .nil))) = true :=
  ⟨rfl, rfl, rfl,
    c3_unify_soundness 2 (Expr.pred "P" (.cons (.term "t1" 0) .nil))
      (Expr.pred "P" (.cons (.functor "c" .nil 0) .nil))
      [(Expr.term "t1" 0, Expr.functor "c" .nil 0)] rfl rfl rfl⟩

end Prover
